import Mathlib

/-!
# Verification of the FlatFlow balance engine

A shallow embedding of the shared-expense reconciliation core in
`apps/web/lib/balance.ts` (net balances, greedy settlement planning,
fairness scoring) and of the TTL/ETag result cache in
`apps/web/app/api/invites/route.ts`, together with proofs and
refutations of the specified properties.

JavaScript numbers are modelled as exact rationals (`ℚ`); JavaScript
`Map` objects (insertion-ordered, keyed by string) are modelled as
association lists with `Map.get` / `Map.set` semantics (`mapGet`,
`mapSet`: set updates the first occurrence in place, otherwise appends).
`Math.round` is `⌊x + 1/2⌋` (half toward +∞), as in JavaScript.
-/

-- ============================================
-- DATA MODEL (types from balance.ts)
-- ============================================

structure User where
  id : String
  name : String
deriving DecidableEq, Repr

structure ExpenseShare where
  userId : String
  amount : ℚ
  isPaid : Bool
deriving DecidableEq, Repr

structure Expense where
  id : String
  amount : ℚ
  paidById : String
  shares : List ExpenseShare
deriving DecidableEq, Repr

structure ChoreAssignment where
  userId : String
  points : ℚ
  isCompleted : Bool
deriving DecidableEq, Repr

structure NetBalance where
  userId : String
  userName : String
  balance : ℚ
deriving DecidableEq, Repr

structure Settlement where
  from_ : String
  fromName : String
  to_ : String
  toName : String
  amount : ℚ
deriving DecidableEq, Repr

structure FairnessScore where
  userId : String
  userName : String
  score : ℚ
  expenseContribution : ℚ
  choreContribution : ℚ
  totalContribution : ℚ
deriving DecidableEq, Repr

-- ============================================
-- JS Map and Math primitives
-- ============================================

/-- JavaScript `Map.get`: the value at the first matching key, if any. -/
def mapGet {α : Type} : List (String × α) → String → Option α
  | [], _ => none
  | p :: t, k => if p.1 = k then some p.2 else mapGet t k

/-- JavaScript `Map.set`: update the entry in place if the key is present,
otherwise append a new entry at the end (insertion order). -/
def mapSet {α : Type} : List (String × α) → String → α → List (String × α)
  | [], k, v => [(k, v)]
  | p :: t, k, v => if p.1 = k then (k, v) :: t else p :: mapSet t k v

/-- `balances.get(k) || 0`: the stored value, or 0 when absent. -/
def getValD (m : List (String × ℚ)) (k : String) : ℚ := (mapGet m k).getD 0

/-- JavaScript `Math.round`: round half toward positive infinity. -/
def jsRound (q : ℚ) : ℤ := ⌊q + 1/2⌋

/-- `Math.round(x * 100) / 100`: round to cents. -/
def jsRound2 (q : ℚ) : ℚ := ((jsRound (q * 100) : ℤ) : ℚ) / 100

-- ============================================
-- calculateNetBalances (balance.ts lines 67-94)
-- ============================================

/-- One step of the `expenses.forEach` loop in `calculateNetBalances`:
credit the payer with the full amount, then debit each share holder. -/
def processExpense (balances : List (String × ℚ)) (e : Expense) : List (String × ℚ) :=
  let balances1 := mapSet balances e.paidById (getValD balances e.paidById + e.amount)
  e.shares.foldl (fun b s => mapSet b s.userId (getValD b s.userId - s.amount)) balances1

/-- `calculateNetBalances(users, expenses)` from balance.ts. -/
def calculateNetBalances (users : List User) (expenses : List Expense) : List NetBalance :=
  let balances := users.foldl (fun b u => mapSet b u.id 0) ([] : List (String × ℚ))
  let balances1 := expenses.foldl processExpense balances
  users.map (fun u => { userId := u.id, userName := u.name, balance := getValD balances1 u.id })

-- Closed-form value of one member's net balance.

/-- The net contribution of a single expense to the balance of member `id`:
the full amount if that member paid, minus that member's shares. -/
def payContrib (id : String) (e : Expense) : ℚ :=
  (if e.paidById = id then e.amount else 0)
    - (e.shares.map (fun s => if s.userId = id then s.amount else 0)).sum

/-- Closed-form net balance of member `id` over a list of expenses. -/
def netFor (id : String) (expenses : List Expense) : ℚ :=
  (expenses.map (payContrib id)).sum

-- ============================================
-- Map lemmas
-- ============================================

theorem mapGet_mapSet {α : Type} (m : List (String × α)) (k id : String) (v : α) :
    mapGet (mapSet m k v) id = if k = id then some v else mapGet m id := by
  induction m with
  | nil =>
    by_cases h : k = id <;> simp [mapSet, mapGet, h]
  | cons p t ih =>
    by_cases h1 : p.1 = k
    · rw [show mapSet (p :: t) k v = (k, v) :: t from by simp [mapSet, h1]]
      by_cases h2 : k = id
      · simp [mapGet, h2]
      · have h3 : ¬ p.1 = id := by rw [h1]; exact h2
        simp [mapGet, h2, h3]
    · rw [show mapSet (p :: t) k v = p :: mapSet t k v from by simp [mapSet, h1]]
      by_cases h2 : p.1 = id
      · have h3 : ¬ k = id := fun h => h1 (by rw [h2, h])
        simp [mapGet, h2, h3]
      · simp [mapGet, h2, ih]

theorem getValD_mapSet (m : List (String × ℚ)) (k id : String) (v : ℚ) :
    getValD (mapSet m k v) id = if k = id then v else getValD m id := by
  unfold getValD
  rw [mapGet_mapSet]
  by_cases h : k = id <;> simp [h]

theorem getValD_shares_fold (shares : List ExpenseShare) (m : List (String × ℚ)) (id : String) :
    getValD (shares.foldl (fun b s => mapSet b s.userId (getValD b s.userId - s.amount)) m) id
      = getValD m id - (shares.map (fun s => if s.userId = id then s.amount else 0)).sum := by
  induction shares generalizing m with
  | nil => simp
  | cons s rest ih =>
    simp only [List.foldl_cons, List.map_cons, List.sum_cons]
    rw [ih, getValD_mapSet]
    by_cases h : s.userId = id
    · simp only [if_pos h]
      rw [h]
      ring
    · simp only [if_neg h]
      ring

theorem getValD_processExpense (m : List (String × ℚ)) (e : Expense) (id : String) :
    getValD (processExpense m e) id = getValD m id + payContrib id e := by
  unfold processExpense payContrib
  rw [getValD_shares_fold, getValD_mapSet]
  by_cases h : e.paidById = id
  · simp only [if_pos h]
    rw [h]
    ring
  · simp only [if_neg h]
    ring

theorem getValD_expenses_fold (expenses : List Expense) (m : List (String × ℚ)) (id : String) :
    getValD (expenses.foldl processExpense m) id = getValD m id + netFor id expenses := by
  induction expenses generalizing m with
  | nil => simp [netFor]
  | cons e rest ih =>
    simp only [List.foldl_cons]
    rw [ih, getValD_processExpense]
    simp [netFor]
    ring

theorem getValD_init_zero (users : List User) (m : List (String × ℚ)) (id : String)
    (h : getValD m id = 0) :
    getValD (users.foldl (fun b u => mapSet b u.id 0) m) id = 0 := by
  induction users generalizing m with
  | nil => simpa
  | cons u rest ih =>
    simp only [List.foldl_cons]
    apply ih
    rw [getValD_mapSet]
    by_cases hc : u.id = id <;> simp [hc, h]

/-- Master closed form for `calculateNetBalances`: one output entry per
input member, in input order, whose balance is `netFor`. -/
theorem calculateNetBalances_eq (users : List User) (expenses : List Expense) :
    calculateNetBalances users expenses
      = users.map (fun u => { userId := u.id, userName := u.name, balance := netFor u.id expenses }) := by
  unfold calculateNetBalances
  apply List.map_congr_left
  intro u _
  rw [getValD_expenses_fold, getValD_init_zero]
  · simp
  · simp [getValD, mapGet]

-- ============================================
-- List sum helpers
-- ============================================

theorem sum_map_add {α : Type} (l : List α) (f g : α → ℚ) :
    (l.map (fun x => f x + g x)).sum = (l.map f).sum + (l.map g).sum := by
  induction l with
  | nil => simp
  | cons x t ih => simp [ih]; ring

theorem sum_map_sub {α : Type} (l : List α) (f g : α → ℚ) :
    (l.map (fun x => f x - g x)).sum = (l.map f).sum - (l.map g).sum := by
  induction l with
  | nil => simp
  | cons x t ih => simp [ih]; ring

theorem sum_map_ite_of_notMem (ids : List String) (x : String) (a : ℚ) (hx : x ∉ ids) :
    (ids.map (fun i => if x = i then a else 0)).sum = 0 := by
  induction ids with
  | nil => simp
  | cons i t ih =>
    have h1 : ¬ x = i := fun h => hx (by simp [h])
    have h2 : x ∉ t := fun h => hx (by simp [h])
    simp [h1, ih h2]

theorem sum_map_ite_of_mem (ids : List String) (x : String) (a : ℚ)
    (hnd : ids.Nodup) (hx : x ∈ ids) :
    (ids.map (fun i => if x = i then a else 0)).sum = a := by
  induction ids with
  | nil => simp at hx
  | cons i t ih =>
    rcases List.mem_cons.mp hx with h | h
    · subst h
      have hnt : x ∉ t := (List.nodup_cons.mp hnd).1
      simp [sum_map_ite_of_notMem t x a hnt]
    · have h1 : ¬ x = i := fun he => (List.nodup_cons.mp hnd).1 (he ▸ h)
      simp [h1, ih (List.nodup_cons.mp hnd).2 h]

theorem sum_map_filter_eq {α : Type} (l : List α) (P : α → Bool) (f : α → ℚ)
    (h : ∀ a ∈ l, P a = false → f a = 0) :
    ((l.filter P).map f).sum = (l.map f).sum := by
  induction l with
  | nil => simp
  | cons x t ih =>
    by_cases hp : P x = true
    · simp [List.filter_cons, hp]
      exact ih (fun a ha => h a (List.mem_cons_of_mem x ha))
    · have hf : f x = 0 := h x (List.mem_cons_self x t) (Bool.eq_false_iff.mpr hp)
      simp [List.filter_cons, hp, hf]
      exact ih (fun a ha => h a (List.mem_cons_of_mem x ha))

-- ============================================
-- C5: output shape and unknown-id handling of calculateNetBalances
-- ============================================

/-- C5: `calculateNetBalances` returns exactly one `NetBalance` per input
member in input order, each balance given by the member's own matched
contributions (`netFor`); and restricting the expense list to known
member ids — zeroing the amount of an expense whose payer is unknown and
dropping every share whose member id is unknown — does not change the
output, so unknown payer/share ids contribute nothing and create no
extra output entry. -/
theorem claim_C5_shape_unknown_ids (users : List User) (expenses : List Expense) :
    calculateNetBalances users expenses
      = users.map (fun u => { userId := u.id, userName := u.name, balance := netFor u.id expenses }) ∧
    calculateNetBalances users expenses
      = calculateNetBalances users
          (expenses.map (fun e =>
            { e with
              amount := if e.paidById ∈ users.map User.id then e.amount else 0,
              shares := e.shares.filter (fun s => s.userId ∈ users.map User.id) })) := by
  refine ⟨calculateNetBalances_eq users expenses, ?_⟩
  rw [calculateNetBalances_eq, calculateNetBalances_eq]
  apply List.map_congr_left
  intro u hu
  have hid : u.id ∈ users.map User.id := List.mem_map.mpr ⟨u, hu, rfl⟩
  simp only [NetBalance.mk.injEq, true_and]
  unfold netFor
  rw [List.map_map]
  apply congrArg
  apply List.map_congr_left
  intro e _
  unfold payContrib
  simp only [Function.comp_apply]
  have hsh : ((e.shares.filter (fun s => decide (s.userId ∈ users.map User.id))).map
        (fun s => if s.userId = u.id then s.amount else 0)).sum
      = (e.shares.map (fun s => if s.userId = u.id then s.amount else 0)).sum := by
    apply sum_map_filter_eq
    intro s _ hs
    have hnm : s.userId ∉ users.map User.id := by
      intro hmem
      simp [hmem] at hs
    have hne : ¬ s.userId = u.id := fun he => hnm (he ▸ hid)
    simp [hne]
  rw [hsh]
  by_cases hp : e.paidById = u.id
  · have hpm : e.paidById ∈ users.map User.id := by rw [hp]; exact hid
    rw [if_pos hp, if_pos hp, if_pos hpm]
  · rw [if_neg hp, if_neg hp]

-- ============================================
-- C1: money conservation
-- ============================================

/-- C1 (counterexample): with a single member who pays an expense with an
empty share list, the returned balances sum to the expense amount, not 0;
the conservation claim fails without preconditions on the input. -/
theorem claim_C1_counterexample :
    ((calculateNetBalances [{ id := "a", name := "A" }]
        [{ id := "e1", amount := 1, paidById := "a", shares := [] }]).map
      NetBalance.balance).sum ≠ 0 := by
  rw [calculateNetBalances_eq]
  simp [netFor, payContrib]

theorem sum_ids_shares (ids : List String) (shares : List ExpenseShare)
    (hnd : ids.Nodup) (hmem : ∀ s ∈ shares, s.userId ∈ ids) :
    (ids.map (fun id => (shares.map (fun s => if s.userId = id then s.amount else 0)).sum)).sum
      = (shares.map ExpenseShare.amount).sum := by
  induction shares with
  | nil => simp
  | cons s t ih =>
    have step : (fun id => ((s :: t).map (fun x => if x.userId = id then x.amount else 0)).sum)
        = fun id => (if s.userId = id then s.amount else 0)
            + (t.map (fun x => if x.userId = id then x.amount else 0)).sum := by
      funext id
      simp
    rw [step, sum_map_add,
      sum_map_ite_of_mem ids s.userId s.amount hnd (hmem s (List.mem_cons_self s t)),
      ih (fun x hx => hmem x (List.mem_cons_of_mem s hx))]
    simp

theorem sum_netFor_zero (ids : List String) (expenses : List Expense)
    (hnd : ids.Nodup)
    (hp : ∀ e ∈ expenses, e.paidById ∈ ids)
    (hs : ∀ e ∈ expenses, ∀ s ∈ e.shares, s.userId ∈ ids)
    (hsum : ∀ e ∈ expenses, (e.shares.map ExpenseShare.amount).sum = e.amount) :
    (ids.map (fun id => netFor id expenses)).sum = 0 := by
  induction expenses with
  | nil => simp [netFor]
  | cons e t ih =>
    have : (ids.map (fun id => netFor id (e :: t))).sum
        = (ids.map (fun id => payContrib id e)).sum + (ids.map (fun id => netFor id t)).sum := by
      rw [show (ids.map (fun id => netFor id (e :: t)))
          = ids.map (fun id => payContrib id e + netFor id t) from by simp [netFor],
        sum_map_add]
    rw [this,
      ih (fun x hx => hp x (List.mem_cons_of_mem e hx))
        (fun x hx => hs x (List.mem_cons_of_mem e hx))
        (fun x hx => hsum x (List.mem_cons_of_mem e hx))]
    have hpay : (ids.map (fun id => payContrib id e)).sum = 0 := by
      unfold payContrib
      rw [sum_map_sub,
        sum_map_ite_of_mem ids e.paidById e.amount hnd (hp e (List.mem_cons_self e t)),
        sum_ids_shares ids e.shares hnd (hs e (List.mem_cons_self e t)),
        hsum e (List.mem_cons_self e t)]
      ring
    rw [hpay]
    ring

/-- C1 (amended): the balances returned by `calculateNetBalances` sum to
zero provided the member ids are pairwise distinct, every expense payer
and share member id occurs in the member list, and every expense's
shares sum to its amount. Without those preconditions conservation
fails (see the counterexample). -/
theorem claim_C1_conservation (users : List User) (expenses : List Expense)
    (hnd : (users.map User.id).Nodup)
    (hp : ∀ e ∈ expenses, e.paidById ∈ users.map User.id)
    (hs : ∀ e ∈ expenses, ∀ s ∈ e.shares, s.userId ∈ users.map User.id)
    (hsum : ∀ e ∈ expenses, (e.shares.map ExpenseShare.amount).sum = e.amount) :
    ((calculateNetBalances users expenses).map NetBalance.balance).sum = 0 := by
  rw [calculateNetBalances_eq, List.map_map]
  have : (NetBalance.balance ∘ fun u =>
      { userId := u.id, userName := u.name, balance := netFor u.id expenses : NetBalance })
      = fun u : User => netFor u.id expenses := rfl
  rw [this]
  have : (users.map (fun u : User => netFor u.id expenses))
      = (users.map User.id).map (fun id => netFor id expenses) := by
    rw [List.map_map]; rfl
  rw [this]
  exact sum_netFor_zero (users.map User.id) expenses hnd hp hs hsum

/-- C1 witness: a concrete two-member input satisfying the amended
preconditions, on which the balances sum to zero. -/
theorem claim_C1_conservation_witness :
    (([{ id := "a", name := "A" }, { id := "b", name := "B" }] : List User).map User.id).Nodup ∧
    ((calculateNetBalances
        [{ id := "a", name := "A" }, { id := "b", name := "B" }]
        [{ id := "e1", amount := 10, paidById := "a",
           shares := [{ userId := "a", amount := 5, isPaid := false },
                      { userId := "b", amount := 5, isPaid := true }] }]).map
      NetBalance.balance).sum = 0 :=
  ⟨by decide,
   claim_C1_conservation _ _ (by decide) (by decide) (by decide)
     (by intro e he; simp at he; subst he; norm_num)⟩

-- ============================================
-- computeFairnessScore (balance.ts lines 188-274)
-- ============================================

structure ExpContrib where
  paid : ℚ
  owed : ℚ
deriving DecidableEq, Repr

structure ChoreContrib where
  completed : ℕ
  total : ℕ
  points : ℚ
deriving DecidableEq, Repr

/-- The `if (data) { mutate data }` pattern on a JS `Map`: update the entry
in place when the key is present, otherwise do nothing. -/
def mapUpdate {α : Type} : List (String × α) → String → (α → α) → List (String × α)
  | [], _, _ => []
  | p :: t, k, f => if p.1 = k then (k, f p.2) :: t else p :: mapUpdate t k f

/-- One step of the `expenses.forEach` loop: credit the payer's `paid`
(only if present in the map), then each share holder's `owed`. -/
def applyExpenseContrib (m : List (String × ExpContrib)) (e : Expense) : List (String × ExpContrib) :=
  let m1 := mapUpdate m e.paidById (fun d => { d with paid := d.paid + e.amount })
  e.shares.foldl (fun m s => mapUpdate m s.userId (fun d => { d with owed := d.owed + s.amount })) m1

/-- One step of the `choreAssignments.forEach` loop: bump `total`, and on a
completed assignment also `completed` and `points`. -/
def applyChoreContrib (m : List (String × ChoreContrib)) (c : ChoreAssignment) : List (String × ChoreContrib) :=
  mapUpdate m c.userId (fun d =>
    if c.isCompleted then
      { completed := d.completed + 1, total := d.total + 1, points := d.points + c.points }
    else
      { d with total := d.total + 1 })

/-- The expense-score block of `computeFairnessScore` (0-50 internal scale,
including the redundant second branch of the source). -/
def expenseScoreOf (paid owed totalExpenses : ℚ) : ℚ :=
  if 0 < owed then min (max (paid / owed * 50) 0) 50
  else if 0 < totalExpenses ∧ 0 < paid then 50
  else 50

/-- The chore-score block of `computeFairnessScore` (0-50 internal scale). -/
def choreScoreOf (completed total : ℕ) (totalChorePoints : ℚ) : ℚ :=
  if 0 < total then ((completed : ℚ) / (total : ℚ)) * 50
  else if totalChorePoints = 0 then 25
  else 20

/-- `computeFairnessScore(users, expenses, choreAssignments)` from balance.ts. -/
def computeFairnessScore (users : List User) (expenses : List Expense)
    (choreAssignments : List ChoreAssignment) : List FairnessScore :=
  let ec := expenses.foldl applyExpenseContrib
    (users.foldl (fun m u => mapSet m u.id { paid := 0, owed := 0 }) [])
  let cc := choreAssignments.foldl applyChoreContrib
    (users.foldl (fun m u => mapSet m u.id { completed := 0, total := 0, points := 0 }) [])
  let totalExpenses := (expenses.map Expense.amount).sum
  let totalChorePoints := (choreAssignments.map ChoreAssignment.points).sum
  users.map (fun u =>
    let expenseData := (mapGet ec u.id).getD { paid := 0, owed := 0 }
    let choreData := (mapGet cc u.id).getD { completed := 0, total := 0, points := 0 }
    let expenseScore := expenseScoreOf expenseData.paid expenseData.owed totalExpenses
    let choreScore := choreScoreOf choreData.completed choreData.total totalChorePoints
    { userId := u.id, userName := u.name,
      score := ((jsRound (min (max (expenseScore + choreScore) 0) 100) : ℤ) : ℚ),
      expenseContribution := ((jsRound (expenseScore * 2) : ℤ) : ℚ),
      choreContribution := ((jsRound (choreScore * 2) : ℤ) : ℚ),
      totalContribution :=
        ((jsRound ((expenseData.paid - expenseData.owed) + choreData.points * 10) : ℤ) : ℚ) })

-- Closed-form per-member accumulations.

/-- Total amount member `id` fronted as payer. -/
def paidOf (id : String) (expenses : List Expense) : ℚ :=
  (expenses.map (fun e => if e.paidById = id then e.amount else 0)).sum

/-- Total amount member `id` owes across all shares. -/
def owedOf (id : String) (expenses : List Expense) : ℚ :=
  (expenses.map (fun e => (e.shares.map (fun s => if s.userId = id then s.amount else 0)).sum)).sum

/-- Number of chore assignments of member `id`. -/
def choreTotalOf (id : String) (cs : List ChoreAssignment) : ℕ :=
  (cs.filter (fun c => c.userId = id)).length

/-- Number of completed chore assignments of member `id`. -/
def choreCompletedOf (id : String) (cs : List ChoreAssignment) : ℕ :=
  (cs.filter (fun c => c.userId = id ∧ c.isCompleted = true)).length

/-- Points of completed chore assignments of member `id`. -/
def chorePointsOf (id : String) (cs : List ChoreAssignment) : ℚ :=
  (cs.map (fun c => if c.userId = id ∧ c.isCompleted = true then c.points else 0)).sum

theorem mapGet_mapUpdate {α : Type} (m : List (String × α)) (k id : String) (f : α → α) :
    mapGet (mapUpdate m k f) id = if k = id then (mapGet m k).map f else mapGet m id := by
  induction m with
  | nil =>
    by_cases h : k = id <;> simp [mapUpdate, mapGet, h]
  | cons p t ih =>
    by_cases h1 : p.1 = k
    · rw [show mapUpdate (p :: t) k f = (k, f p.2) :: t from by simp [mapUpdate, h1]]
      by_cases h2 : k = id
      · simp [mapGet, h1, h2]
      · have h3 : ¬ p.1 = id := by rw [h1]; exact h2
        simp [mapGet, h1, h2, h3]
    · rw [show mapUpdate (p :: t) k f = p :: mapUpdate t k f from by simp [mapUpdate, h1]]
      by_cases h2 : p.1 = id
      · have h3 : ¬ k = id := fun h => h1 (by rw [h2, h])
        simp [mapGet, h2, h3]
      · simp [mapGet, h1, h2, ih]

theorem mapGet_init {α : Type} (users : List User) (m0 : List (String × α)) (v0 : α) (id : String) :
    mapGet (users.foldl (fun m u => mapSet m u.id v0) m0) id
      = if id ∈ users.map User.id then some v0 else mapGet m0 id := by
  induction users generalizing m0 with
  | nil => simp
  | cons u rest ih =>
    simp only [List.foldl_cons]
    rw [ih]
    by_cases h : id ∈ rest.map User.id
    · simp [h]
    · rw [if_neg h, mapGet_mapSet]
      by_cases h2 : u.id = id
      · simp [h2]
      · have hmem : id ∉ (u :: rest).map User.id := by
          simp only [List.map_cons, List.mem_cons]
          push_neg
          exact ⟨fun hh => h2 hh.symm, h⟩
        rw [if_neg h2, if_neg hmem]

theorem mapGet_owed_fold (shares : List ExpenseShare) (m : List (String × ExpContrib)) (id : String) :
    mapGet (shares.foldl (fun m s => mapUpdate m s.userId (fun d => { d with owed := d.owed + s.amount })) m) id
      = (mapGet m id).map (fun d =>
          { d with owed := d.owed + (shares.map (fun s => if s.userId = id then s.amount else 0)).sum }) := by
  induction shares generalizing m with
  | nil =>
    simp only [List.foldl_nil]
    cases hd : mapGet m id <;> simp [hd]
  | cons s rest ih =>
    simp only [List.foldl_cons]
    rw [ih, mapGet_mapUpdate]
    by_cases h : s.userId = id
    · rw [if_pos h, h]
      cases hd : mapGet m id <;> simp [hd, h, add_assoc]
    · rw [if_neg h]
      cases hd : mapGet m id <;> simp [hd, h]

theorem mapGet_applyExpense (m : List (String × ExpContrib)) (e : Expense) (id : String) :
    mapGet (applyExpenseContrib m e) id
      = (mapGet m id).map (fun d =>
          { paid := d.paid + (if e.paidById = id then e.amount else 0),
            owed := d.owed + (e.shares.map (fun s => if s.userId = id then s.amount else 0)).sum }) := by
  unfold applyExpenseContrib
  rw [mapGet_owed_fold, mapGet_mapUpdate]
  by_cases h : e.paidById = id
  · rw [if_pos h, h]
    cases hd : mapGet m id <;> simp [hd, h]
  · rw [if_neg h]
    cases hd : mapGet m id <;> simp [hd, h]

theorem mapGet_expenses_contrib_fold (expenses : List Expense) (m : List (String × ExpContrib)) (id : String) :
    mapGet (expenses.foldl applyExpenseContrib m) id
      = (mapGet m id).map (fun d =>
          { paid := d.paid + paidOf id expenses, owed := d.owed + owedOf id expenses }) := by
  induction expenses generalizing m with
  | nil =>
    simp only [List.foldl_nil]
    cases hd : mapGet m id <;> simp [hd, paidOf, owedOf]
  | cons e rest ih =>
    simp only [List.foldl_cons]
    rw [ih, mapGet_applyExpense]
    cases hd : mapGet m id <;> simp [hd, paidOf, owedOf, add_assoc]

theorem choreTotalOf_cons (id : String) (c : ChoreAssignment) (rest : List ChoreAssignment) :
    choreTotalOf id (c :: rest) = (if c.userId = id then 1 else 0) + choreTotalOf id rest := by
  by_cases h : c.userId = id <;> simp [choreTotalOf, List.filter_cons, h] <;> omega

theorem choreCompletedOf_cons (id : String) (c : ChoreAssignment) (rest : List ChoreAssignment) :
    choreCompletedOf id (c :: rest)
      = (if c.userId = id ∧ c.isCompleted = true then 1 else 0) + choreCompletedOf id rest := by
  by_cases h : c.userId = id ∧ c.isCompleted = true <;>
    simp [choreCompletedOf, List.filter_cons, h] <;> omega

theorem chorePointsOf_cons (id : String) (c : ChoreAssignment) (rest : List ChoreAssignment) :
    chorePointsOf id (c :: rest)
      = (if c.userId = id ∧ c.isCompleted = true then c.points else 0) + chorePointsOf id rest := by
  simp [chorePointsOf]

theorem mapGet_chores_fold (cs : List ChoreAssignment) (m : List (String × ChoreContrib)) (id : String) :
    mapGet (cs.foldl applyChoreContrib m) id
      = (mapGet m id).map (fun d =>
          { completed := d.completed + choreCompletedOf id cs,
            total := d.total + choreTotalOf id cs,
            points := d.points + chorePointsOf id cs }) := by
  induction cs generalizing m with
  | nil =>
    simp only [List.foldl_nil]
    cases hd : mapGet m id <;> simp [hd, choreCompletedOf, choreTotalOf, chorePointsOf]
  | cons c rest ih =>
    simp only [List.foldl_cons]
    rw [ih]
    unfold applyChoreContrib
    rw [mapGet_mapUpdate]
    rw [choreTotalOf_cons, choreCompletedOf_cons, chorePointsOf_cons]
    by_cases h : c.userId = id
    · rw [if_pos h, h]
      by_cases hc : c.isCompleted = true
      · cases hd : mapGet m id <;> simp [hd, h, hc, add_assoc]
      · cases hd : mapGet m id <;> simp [hd, h, hc, add_assoc]
    · rw [if_neg h]
      cases hd : mapGet m id <;> simp [hd, h]

/-- Master closed form for `computeFairnessScore`: one output record per
input member, in input order, built from that member's matched paid/owed
amounts and chore counts. -/
theorem computeFairnessScore_eq (users : List User) (expenses : List Expense)
    (cs : List ChoreAssignment) :
    computeFairnessScore users expenses cs = users.map (fun u =>
      { userId := u.id, userName := u.name,
        score := ((jsRound (min (max
            (expenseScoreOf (paidOf u.id expenses) (owedOf u.id expenses) (expenses.map Expense.amount).sum
              + choreScoreOf (choreCompletedOf u.id cs) (choreTotalOf u.id cs) (cs.map ChoreAssignment.points).sum)
            0) 100) : ℤ) : ℚ),
        expenseContribution := ((jsRound
          (expenseScoreOf (paidOf u.id expenses) (owedOf u.id expenses) (expenses.map Expense.amount).sum * 2) : ℤ) : ℚ),
        choreContribution := ((jsRound
          (choreScoreOf (choreCompletedOf u.id cs) (choreTotalOf u.id cs) (cs.map ChoreAssignment.points).sum * 2) : ℤ) : ℚ),
        totalContribution :=
          ((jsRound ((paidOf u.id expenses - owedOf u.id expenses) + chorePointsOf u.id cs * 10) : ℤ) : ℚ) }) := by
  unfold computeFairnessScore
  apply List.map_congr_left
  intro u hu
  have hmem : u.id ∈ users.map User.id := List.mem_map.mpr ⟨u, hu, rfl⟩
  rw [mapGet_expenses_contrib_fold, mapGet_chores_fold, mapGet_init, mapGet_init,
    if_pos hmem, if_pos hmem]
  simp

-- ============================================
-- jsRound lemmas
-- ============================================

theorem jsRound_eq (q : ℚ) (n : ℤ) (h1 : (n : ℚ) ≤ q + 1/2) (h2 : q + 1/2 < n + 1) :
    jsRound q = n := by
  unfold jsRound
  rw [Int.floor_eq_iff]
  exact ⟨h1, h2⟩

theorem jsRound_intCast (z : ℤ) : jsRound ((z : ℚ)) = z :=
  jsRound_eq _ _ (by norm_num) (by norm_num)

theorem jsRound2_intCast (z : ℤ) : jsRound2 ((z : ℚ)) = ((z : ℚ)) := by
  unfold jsRound2
  have h : jsRound ((z : ℚ) * 100) = 100 * z := by
    have he : ((z : ℚ)) * 100 = (((100 * z : ℤ)) : ℚ) := by push_cast; ring
    rw [he, jsRound_intCast]
  rw [h]
  push_cast
  ring

-- ============================================
-- C7: score form and bounds
-- ============================================

/-- C7: every `FairnessScore.score` returned by `computeFairnessScore` is
exactly `round(clamp(expenseSubscore + choreSubscore, 0, 100))` for that
member's expense and chore subscores (0-50 internal scale each), and is
an integer in [0, 100] — for any input, including negative amounts. -/
theorem claim_C7_score_bounds (users : List User) (expenses : List Expense)
    (cs : List ChoreAssignment) :
    ∀ f ∈ computeFairnessScore users expenses cs, ∃ u ∈ users, ∃ n : ℤ,
      f.score = (n : ℚ) ∧ 0 ≤ n ∧ n ≤ 100 ∧
      n = jsRound (min (max
        (expenseScoreOf (paidOf u.id expenses) (owedOf u.id expenses) (expenses.map Expense.amount).sum
          + choreScoreOf (choreCompletedOf u.id cs) (choreTotalOf u.id cs) (cs.map ChoreAssignment.points).sum)
        0) 100) := by
  intro f hf
  rw [computeFairnessScore_eq] at hf
  obtain ⟨u, hu, hfe⟩ := List.mem_map.mp hf
  refine ⟨u, hu, jsRound (min (max
      (expenseScoreOf (paidOf u.id expenses) (owedOf u.id expenses) (expenses.map Expense.amount).sum
        + choreScoreOf (choreCompletedOf u.id cs) (choreTotalOf u.id cs) (cs.map ChoreAssignment.points).sum)
      0) 100), ?_, ?_, ?_, rfl⟩
  · rw [← hfe]
  · set x := min (max
      (expenseScoreOf (paidOf u.id expenses) (owedOf u.id expenses) (expenses.map Expense.amount).sum
        + choreScoreOf (choreCompletedOf u.id cs) (choreTotalOf u.id cs) (cs.map ChoreAssignment.points).sum)
      0) 100 with hx
    have hx0 : 0 ≤ x := le_min (le_max_right _ 0) (by norm_num)
    unfold jsRound
    rw [Int.floor_nonneg]
    linarith
  · set x := min (max
      (expenseScoreOf (paidOf u.id expenses) (owedOf u.id expenses) (expenses.map Expense.amount).sum
        + choreScoreOf (choreCompletedOf u.id cs) (choreTotalOf u.id cs) (cs.map ChoreAssignment.points).sum)
      0) 100 with hx
    have hx100 : x ≤ 100 := min_le_right _ _
    have hlt : jsRound x < 101 := by
      unfold jsRound
      rw [Int.floor_lt]
      push_cast
      linarith
    omega

/-- Concrete member for the C7 witness. -/
def c7User : User := { id := "a", name := "A" }

/-- The fairness record `computeFairnessScore [c7User] [] []` returns. -/
def c7Score : FairnessScore :=
  { userId := "a", userName := "A", score := 75, expenseContribution := 100,
    choreContribution := 50, totalContribution := 0 }

/-- C7 witness: a single member with no expenses and no chores scores 75,
an integer in bounds. -/
theorem claim_C7_score_bounds_witness :
    c7Score ∈ computeFairnessScore [c7User] [] [] ∧
    ∃ u ∈ [c7User], ∃ n : ℤ,
      c7Score.score = (n : ℚ) ∧ 0 ≤ n ∧ n ≤ 100 ∧
      n = jsRound (min (max
        (expenseScoreOf (paidOf u.id []) (owedOf u.id []) (([] : List Expense).map Expense.amount).sum
          + choreScoreOf (choreCompletedOf u.id []) (choreTotalOf u.id [])
              (([] : List ChoreAssignment).map ChoreAssignment.points).sum)
        0) 100) := by
  have hmem : c7Score ∈ computeFairnessScore [c7User] [] [] := by
    rw [computeFairnessScore_eq]
    simp only [List.map_cons, List.map_nil, List.mem_singleton]
    norm_num [c7User, c7Score, paidOf, owedOf, choreTotalOf, choreCompletedOf, chorePointsOf,
      expenseScoreOf, choreScoreOf, jsRound]
  exact ⟨hmem, claim_C7_score_bounds [c7User] [] [] c7Score hmem⟩

-- ============================================
-- C4: chore subscore for members with no assigned chores
-- ============================================

/-- Chore list for the C4 counterexample: one zero-point, not-completed
assignment held by member "b". -/
def c4cs : List ChoreAssignment := [{ userId := "b", points := 0, isCompleted := false }]

/-- C4 (counterexample): member "a" has no assigned chores while member
"b" does have a chore assignment (with 0 points); the claim demands the
mild-penalty subscore 20 for "a" (reported as 40 on the 0-100 output
scale), but the code keys on the group-wide points total, which is 0
here, and returns the neutral 25 (reported as 50). -/
theorem claim_C4_counterexample :
    choreTotalOf "a" c4cs = 0 ∧
    choreTotalOf "b" c4cs = 1 ∧
    ((computeFairnessScore [{ id := "a", name := "A" }, { id := "b", name := "B" }] []
        c4cs)[0]?).map FairnessScore.choreContribution = some 50 ∧
    (50 : ℚ) ≠ 40 := by
  refine ⟨by decide, by decide, ?_, by norm_num⟩
  rw [computeFairnessScore_eq]
  simp only [List.map_cons, List.map_nil, List.getElem?_cons_zero, Option.map_some',
    Option.some.injEq]
  rw [show choreTotalOf "a" c4cs = 0 from by decide,
    show choreCompletedOf "a" c4cs = 0 from by decide]
  norm_num [c4cs, choreScoreOf, jsRound]

/-- C4 (amended): in `computeFairnessScore`, a member with no assigned
chores receives the neutral chore subscore 25 (reported as 50 on the
0-100 output scale) exactly when the summed points of ALL chore
assignments in the group equal 0 — not only when no chore assignments
exist anywhere — and the mild-penalty subscore 20 (reported as 40)
otherwise. -/
theorem claim_C4_chore_subscore (users : List User) (expenses : List Expense)
    (cs : List ChoreAssignment) (i : ℕ) (u : User) (f : FairnessScore)
    (hu : users[i]? = some u)
    (hf : (computeFairnessScore users expenses cs)[i]? = some f)
    (h0 : choreTotalOf u.id cs = 0) :
    f.choreContribution = if (cs.map ChoreAssignment.points).sum = 0 then (50 : ℚ) else 40 := by
  rw [computeFairnessScore_eq, List.getElem?_map, hu, Option.map_some'] at hf
  have hfe : _ = f := Option.some_inj.mp hf
  subst hfe
  dsimp only
  rw [h0]
  by_cases hp : (cs.map ChoreAssignment.points).sum = 0
  · have h25 : choreScoreOf (choreCompletedOf u.id cs) 0 ((cs.map ChoreAssignment.points).sum) = 25 := by
      unfold choreScoreOf
      rw [if_neg (by omega), if_pos hp]
    rw [if_pos hp, h25]
    norm_num [jsRound]
  · have h20 : choreScoreOf (choreCompletedOf u.id cs) 0 ((cs.map ChoreAssignment.points).sum) = 20 := by
      unfold choreScoreOf
      rw [if_neg (by omega), if_neg hp]
    rw [if_neg hp, h20]
    norm_num [jsRound]

/-- Members for the C4 witness. -/
def c4wUsers : List User := [{ id := "a", name := "A" }, { id := "b", name := "B" }]

/-- Chore list for the C4 witness: one 1-point assignment held by "b". -/
def c4wcs : List ChoreAssignment := [{ userId := "b", points := 1, isCompleted := false }]

/-- The fairness record the C4 witness input yields for member "a". -/
def c4wScore : FairnessScore :=
  { userId := "a", userName := "A", score := 70, expenseContribution := 100,
    choreContribution := 40, totalContribution := 0 }

/-- C4 witness: member "a" has no chores while "b" has a 1-point one, so
the group points total is nonzero and "a" is reported 40 (= 2 x 20). -/
theorem claim_C4_chore_subscore_witness :
    c4wUsers[0]? = some { id := "a", name := "A" } ∧
    (computeFairnessScore c4wUsers [] c4wcs)[0]? = some c4wScore ∧
    choreTotalOf "a" c4wcs = 0 ∧
    c4wScore.choreContribution
      = if (c4wcs.map ChoreAssignment.points).sum = 0 then (50 : ℚ) else 40 := by
  have h2 : (computeFairnessScore c4wUsers [] c4wcs)[0]? = some c4wScore := by
    rw [computeFairnessScore_eq]
    simp only [c4wUsers, List.map_cons, List.map_nil, List.getElem?_cons_zero,
      Option.some.injEq]
    rw [show choreTotalOf "a" c4wcs = 0 from by decide,
      show choreCompletedOf "a" c4wcs = 0 from by decide]
    norm_num [c4wcs, c4wScore, paidOf, owedOf, chorePointsOf, expenseScoreOf,
      choreScoreOf, jsRound]
  exact ⟨rfl, h2, by decide,
    claim_C4_chore_subscore c4wUsers [] c4wcs 0 { id := "a", name := "A" } c4wScore rfl h2
      (by decide)⟩

-- ============================================
-- simplifySettlements (balance.ts lines 100-158)
-- ============================================

/-- State of the `balances.forEach` scan inside the settlement loop. -/
structure ScanState where
  maxDebtor : Option String
  maxDebt : ℚ
  maxCreditor : Option String
  maxCredit : ℚ
deriving DecidableEq, Repr

/-- First `if` of the scan body: a strictly larger debt magnitude (beyond
the -0.01 epsilon) replaces the current max debtor. -/
def scanDebit (st : ScanState) (p : String × ℚ) : ScanState :=
  if p.2 < -(1/100) ∧ st.maxDebt < |p.2| then
    { st with maxDebtor := some p.1, maxDebt := |p.2| }
  else st

/-- Second `if` of the scan body: a strictly larger credit (beyond the
0.01 epsilon) replaces the current max creditor. -/
def scanCredit (st : ScanState) (p : String × ℚ) : ScanState :=
  if (1/100 : ℚ) < p.2 ∧ st.maxCredit < p.2 then
    { st with maxCreditor := some p.1, maxCredit := p.2 }
  else st

/-- One entry of the `balances.forEach` scan. -/
def scanEntry (st : ScanState) (p : String × ℚ) : ScanState :=
  scanCredit (scanDebit st p) p

/-- The whole scan, in map insertion order. -/
def scanBalances (b : List (String × ℚ)) : ScanState :=
  b.foldl scanEntry { maxDebtor := none, maxDebt := 0, maxCreditor := none, maxCredit := 0 }

/-- `userMap.get(id)?.name || 'Unknown'`. -/
def nameOr : Option User → String
  | none => "Unknown"
  | some u => if u.name = "" then "Unknown" else u.name

/-- One iteration of the `while (true)` loop: `none` models the `break`
(no max debtor, no max creditor, or a falsy empty-string id), otherwise
the emitted settlement (amount rounded to cents) and the updated
balances (updated by the unrounded amount). -/
def settleIter (um : List (String × User)) (b : List (String × ℚ)) :
    Option (Settlement × List (String × ℚ)) :=
  match (scanBalances b).maxDebtor, (scanBalances b).maxCreditor with
  | some d, some c =>
    if d = "" ∨ c = "" then none
    else
      some ({ from_ := d, fromName := nameOr (mapGet um d),
              to_ := c, toName := nameOr (mapGet um c),
              amount := jsRound2 (min (scanBalances b).maxDebt (scanBalances b).maxCredit) },
            mapSet (mapSet b d
                ((mapGet b d).getD 0 + min (scanBalances b).maxDebt (scanBalances b).maxCredit))
              c ((mapGet b c).getD 0 - min (scanBalances b).maxDebt (scanBalances b).maxCredit))
  | _, _ => none

/-- The settlement loop, with explicit fuel; the boolean records whether
the loop exited through its `break` (`settleLoop_flag` below proves it
always does within `netBalances.length + 1` iterations). -/
def settleLoop (um : List (String × User)) : ℕ → List (String × ℚ) → List Settlement × Bool
  | 0, _ => ([], false)
  | fuel + 1, b =>
    match settleIter um b with
    | none => ([], true)
    | some (s, b1) =>
      let r := settleLoop um fuel b1
      (s :: r.1, r.2)

/-- The working copy `netBalances.forEach(nb => balances.set(...))`. -/
def buildBalanceMap (netBalances : List NetBalance) : List (String × ℚ) :=
  netBalances.foldl (fun m nb => mapSet m nb.userId nb.balance) []

/-- `new Map(users.map(u => [u.id, u]))`. -/
def buildUserMap (users : List User) : List (String × User) :=
  users.foldl (fun m u => mapSet m u.id u) []

/-- `simplifySettlements(users, netBalances)` from balance.ts. -/
def simplifySettlements (users : List User) (netBalances : List NetBalance) : List Settlement :=
  (settleLoop (buildUserMap users) (netBalances.length + 1) (buildBalanceMap netBalances)).1

-- Measures over balance maps.

/-- Whether a balance magnitude exceeds the 0.01 epsilon. -/
def qNZ (q : ℚ) : Bool := decide (q < -(1/100)) || decide ((1/100 : ℚ) < q)

/-- Number of entries whose balance magnitude exceeds the 0.01 epsilon. -/
def nzCount (b : List (String × ℚ)) : ℕ :=
  (b.filter (fun p => qNZ p.2)).length

/-- Sum of all balances in the map. -/
def mapSum (b : List (String × ℚ)) : ℚ := (b.map (fun p => p.2)).sum

/-- Sum of the positive parts of all balances in the map. -/
def mapPosSum (b : List (String × ℚ)) : ℚ := (b.map (fun p => max p.2 0)).sum

/-- Sum of settlement amounts. -/
def sumAmounts (ss : List Settlement) : ℚ := (ss.map Settlement.amount).sum

/-- Every balance in the map is an integer (minor units). -/
def allInt (b : List (String × ℚ)) : Prop := ∀ p ∈ b, ∃ z : ℤ, p.2 = (z : ℚ)

-- ============================================
-- More map lemmas
-- ============================================

theorem mapGet_mem {α : Type} (m : List (String × α)) (k : String) (v : α)
    (h : mapGet m k = some v) : (k, v) ∈ m := by
  induction m with
  | nil => simp [mapGet] at h
  | cons p t ih =>
    by_cases h1 : p.1 = k
    · have h2 : p.2 = v := by simpa [mapGet, h1] using h
      rw [← h1, ← h2]
      exact List.mem_cons_self p t
    · exact List.mem_cons_of_mem p (ih (by simpa [mapGet, h1] using h))

theorem mapGet_of_mem_nodup {α : Type} (m : List (String × α)) (k : String) (v : α)
    (hnd : (m.map Prod.fst).Nodup) (hm : (k, v) ∈ m) : mapGet m k = some v := by
  induction m with
  | nil => simp at hm
  | cons p t ih =>
    rcases List.mem_cons.mp hm with rfl | hmt
    · simp [mapGet]
    · have hk : k ∈ t.map Prod.fst := List.mem_map.mpr ⟨(k, v), hmt, rfl⟩
      have h1 : ¬ p.1 = k := by
        intro he
        exact (List.nodup_cons.mp (by simpa using hnd)).1 (he ▸ hk)
      simp only [mapGet, if_neg h1]
      exact ih (List.nodup_cons.mp (by simpa using hnd)).2 hmt

theorem mem_mapSet {α : Type} (m : List (String × α)) (k : String) (v : α) (p : String × α)
    (h : p ∈ mapSet m k v) : p ∈ m ∨ p = (k, v) := by
  induction m with
  | nil => simp [mapSet] at h; right; exact h
  | cons q t ih =>
    by_cases h1 : q.1 = k
    · rw [show mapSet (q :: t) k v = (k, v) :: t from by simp [mapSet, h1]] at h
      rcases List.mem_cons.mp h with he | hmt
      · right; exact he
      · left; exact List.mem_cons_of_mem q hmt
    · rw [show mapSet (q :: t) k v = q :: mapSet t k v from by simp [mapSet, h1]] at h
      rcases List.mem_cons.mp h with he | hmt
      · left; rw [he]; exact List.mem_cons_self q t
      · rcases ih hmt with hm | he
        · left; exact List.mem_cons_of_mem q hm
        · right; exact he

theorem keys_mapSet_mem {α : Type} (m : List (String × α)) (k : String) (v w : α)
    (h : mapGet m k = some w) : (mapSet m k v).map Prod.fst = m.map Prod.fst := by
  induction m with
  | nil => simp [mapGet] at h
  | cons p t ih =>
    by_cases h1 : p.1 = k
    · rw [show mapSet (p :: t) k v = (k, v) :: t from by simp [mapSet, h1]]
      simp [h1]
    · rw [show mapSet (p :: t) k v = p :: mapSet t k v from by simp [mapSet, h1]]
      simp only [List.map_cons]
      rw [ih (by simpa [mapGet, h1] using h)]

theorem keys_mapSet {α : Type} (m : List (String × α)) (k : String) (v : α) :
    (mapSet m k v).map Prod.fst
      = if k ∈ m.map Prod.fst then m.map Prod.fst else m.map Prod.fst ++ [k] := by
  induction m with
  | nil => simp [mapSet]
  | cons p t ih =>
    by_cases h1 : p.1 = k
    · rw [show mapSet (p :: t) k v = (k, v) :: t from by simp [mapSet, h1]]
      have : k ∈ (p :: t).map Prod.fst := by simp [h1.symm]
      simp [this, h1]
    · rw [show mapSet (p :: t) k v = p :: mapSet t k v from by simp [mapSet, h1]]
      simp only [List.map_cons, ih]
      by_cases h2 : k ∈ t.map Prod.fst
      · have : k ∈ p.1 :: t.map Prod.fst := by simp [h2]
        simp [h2, this]
      · have : k ∉ p.1 :: t.map Prod.fst := by
          simp only [List.mem_cons]
          push_neg
          exact ⟨fun he => h1 (he.symm), h2⟩
        simp [h2, this]

theorem keys_nodup_mapSet {α : Type} (m : List (String × α)) (k : String) (v : α)
    (hnd : (m.map Prod.fst).Nodup) : ((mapSet m k v).map Prod.fst).Nodup := by
  rw [keys_mapSet]
  by_cases h : k ∈ m.map Prod.fst
  · simpa [h]
  · simp [h, List.nodup_append, hnd]

theorem mapSet_length_le {α : Type} (m : List (String × α)) (k : String) (v : α) :
    (mapSet m k v).length ≤ m.length + 1 := by
  induction m with
  | nil => simp [mapSet]
  | cons p t ih =>
    by_cases h1 : p.1 = k
    · rw [show mapSet (p :: t) k v = (k, v) :: t from by simp [mapSet, h1]]
      simp
    · rw [show mapSet (p :: t) k v = p :: mapSet t k v from by simp [mapSet, h1]]
      simp only [List.length_cons]
      omega

theorem mapSum_mapSet (m : List (String × ℚ)) (k : String) (v w : ℚ)
    (h : mapGet m k = some w) : mapSum (mapSet m k v) = mapSum m - w + v := by
  induction m with
  | nil => simp [mapGet] at h
  | cons p t ih =>
    by_cases h1 : p.1 = k
    · have hw : p.2 = w := by simpa [mapGet, h1] using h
      rw [show mapSet (p :: t) k v = (k, v) :: t from by simp [mapSet, h1]]
      simp [mapSum, hw]
      ring
    · have h2 : mapGet t k = some w := by simpa [mapGet, h1] using h
      rw [show mapSet (p :: t) k v = p :: mapSet t k v from by simp [mapSet, h1]]
      simp only [mapSum, List.map_cons, List.sum_cons] at *
      rw [ih h2]
      ring

theorem mapPosSum_mapSet (m : List (String × ℚ)) (k : String) (v w : ℚ)
    (h : mapGet m k = some w) :
    mapPosSum (mapSet m k v) = mapPosSum m - max w 0 + max v 0 := by
  induction m with
  | nil => simp [mapGet] at h
  | cons p t ih =>
    by_cases h1 : p.1 = k
    · have hw : p.2 = w := by simpa [mapGet, h1] using h
      rw [show mapSet (p :: t) k v = (k, v) :: t from by simp [mapSet, h1]]
      simp [mapPosSum, hw]
      ring
    · have h2 : mapGet t k = some w := by simpa [mapGet, h1] using h
      rw [show mapSet (p :: t) k v = p :: mapSet t k v from by simp [mapSet, h1]]
      simp only [mapPosSum, List.map_cons, List.sum_cons] at *
      rw [ih h2]
      ring

theorem qNZ_of_neg (q : ℚ) (h : q < -(1/100)) : qNZ q = true := by
  simp only [qNZ, Bool.or_eq_true, decide_eq_true_eq]
  left
  exact h

theorem qNZ_of_pos (q : ℚ) (h : (1/100 : ℚ) < q) : qNZ q = true := by
  simp only [qNZ, Bool.or_eq_true, decide_eq_true_eq]
  right
  exact h

theorem qNZ_false (q : ℚ) (h : qNZ q = false) : -(1/100) ≤ q ∧ q ≤ 1/100 := by
  simp only [qNZ, Bool.or_eq_false_iff, decide_eq_false_iff_not, not_lt] at h
  exact h

theorem nzCount_cons (p : String × ℚ) (t : List (String × ℚ)) :
    nzCount (p :: t) = (if qNZ p.2 then 1 else 0) + nzCount t := by
  unfold nzCount
  rw [List.filter_cons]
  by_cases h : qNZ p.2 = true
  · simp [h]
    omega
  · simp at h
    simp [h]

theorem nzCount_mapSet (m : List (String × ℚ)) (k : String) (v w : ℚ)
    (h : mapGet m k = some w) :
    nzCount (mapSet m k v) + (if qNZ w then 1 else 0)
      = nzCount m + (if qNZ v then 1 else 0) := by
  induction m with
  | nil => simp [mapGet] at h
  | cons p t ih =>
    by_cases h1 : p.1 = k
    · have hw : p.2 = w := by simpa [mapGet, h1] using h
      rw [show mapSet (p :: t) k v = (k, v) :: t from by simp [mapSet, h1],
        nzCount_cons, nzCount_cons, hw]
      ring
    · have h2 : mapGet t k = some w := by simpa [mapGet, h1] using h
      rw [show mapSet (p :: t) k v = p :: mapSet t k v from by simp [mapSet, h1],
        nzCount_cons, nzCount_cons]
      have := ih h2
      omega

-- ============================================
-- Scan lemmas
-- ============================================

theorem scanCredit_maxDebtor (st : ScanState) (p : String × ℚ) :
    (scanCredit st p).maxDebtor = st.maxDebtor := by
  unfold scanCredit
  split <;> rfl

theorem scanCredit_maxDebt (st : ScanState) (p : String × ℚ) :
    (scanCredit st p).maxDebt = st.maxDebt := by
  unfold scanCredit
  split <;> rfl

theorem scanDebit_maxCreditor (st : ScanState) (p : String × ℚ) :
    (scanDebit st p).maxCreditor = st.maxCreditor := by
  unfold scanDebit
  split <;> rfl

theorem scanDebit_maxCredit (st : ScanState) (p : String × ℚ) :
    (scanDebit st p).maxCredit = st.maxCredit := by
  unfold scanDebit
  split <;> rfl

theorem scanEntry_maxDebtor (st : ScanState) (p : String × ℚ) :
    (scanEntry st p).maxDebtor
      = if p.2 < -(1/100) ∧ st.maxDebt < |p.2| then some p.1 else st.maxDebtor := by
  unfold scanEntry
  rw [scanCredit_maxDebtor]
  unfold scanDebit
  split <;> rfl

theorem scanEntry_maxDebt (st : ScanState) (p : String × ℚ) :
    (scanEntry st p).maxDebt
      = if p.2 < -(1/100) ∧ st.maxDebt < |p.2| then |p.2| else st.maxDebt := by
  unfold scanEntry
  rw [scanCredit_maxDebt]
  unfold scanDebit
  split <;> rfl

theorem scanEntry_maxCreditor (st : ScanState) (p : String × ℚ) :
    (scanEntry st p).maxCreditor
      = if (1/100 : ℚ) < p.2 ∧ st.maxCredit < p.2 then some p.1 else st.maxCreditor := by
  unfold scanEntry scanCredit
  rw [scanDebit_maxCredit]
  split
  · rfl
  · rw [scanDebit_maxCreditor]

theorem scanEntry_maxCredit (st : ScanState) (p : String × ℚ) :
    (scanEntry st p).maxCredit
      = if (1/100 : ℚ) < p.2 ∧ st.maxCredit < p.2 then p.2 else st.maxCredit := by
  unfold scanEntry scanCredit
  rw [scanDebit_maxCredit]
  split
  · rfl
  · rw [scanDebit_maxCredit]

theorem scanEntry_maxDebt_mono (st : ScanState) (p : String × ℚ) :
    st.maxDebt ≤ (scanEntry st p).maxDebt := by
  by_cases h : p.2 < -(1/100) ∧ st.maxDebt < |p.2|
  · rw [scanEntry_maxDebt, if_pos h]
    exact le_of_lt h.2
  · rw [scanEntry_maxDebt, if_neg h]

theorem scanEntry_maxDebt_cover (st : ScanState) (p : String × ℚ) (h : p.2 < -(1/100)) :
    |p.2| ≤ (scanEntry st p).maxDebt := by
  by_cases h2 : st.maxDebt < |p.2|
  · rw [scanEntry_maxDebt, if_pos ⟨h, h2⟩]
  · rw [scanEntry_maxDebt, if_neg (fun hc => h2 hc.2)]
    exact le_of_not_lt h2

theorem scanEntry_maxCredit_mono (st : ScanState) (p : String × ℚ) :
    st.maxCredit ≤ (scanEntry st p).maxCredit := by
  by_cases h : (1/100 : ℚ) < p.2 ∧ st.maxCredit < p.2
  · rw [scanEntry_maxCredit, if_pos h]
    exact le_of_lt h.2
  · rw [scanEntry_maxCredit, if_neg h]

theorem scanEntry_maxCredit_cover (st : ScanState) (p : String × ℚ) (h : (1/100 : ℚ) < p.2) :
    p.2 ≤ (scanEntry st p).maxCredit := by
  by_cases h2 : st.maxCredit < p.2
  · rw [scanEntry_maxCredit, if_pos ⟨h, h2⟩]
  · rw [scanEntry_maxCredit, if_neg (fun hc => h2 hc.2)]
    exact le_of_not_lt h2

theorem scan_debtor_core (b : List (String × ℚ)) : ∀ (st0 : ScanState),
    ((b.foldl scanEntry st0).maxDebtor = st0.maxDebtor
        ∧ (b.foldl scanEntry st0).maxDebt = st0.maxDebt
        ∧ ∀ q ∈ b, q.2 < -(1/100) → |q.2| ≤ st0.maxDebt)
      ∨ (∃ l1 p l2, b = l1 ++ p :: l2 ∧ p.2 < -(1/100)
          ∧ (b.foldl scanEntry st0).maxDebtor = some p.1
          ∧ (b.foldl scanEntry st0).maxDebt = |p.2|
          ∧ st0.maxDebt < |p.2|
          ∧ (∀ q ∈ l1, q.2 < -(1/100) → |q.2| < |p.2|)
          ∧ (∀ q ∈ l2, q.2 < -(1/100) → |q.2| ≤ |p.2|)) := by
  induction b with
  | nil =>
    intro st0
    left
    exact ⟨rfl, rfl, by simp⟩
  | cons x t ih =>
    intro st0
    simp only [List.foldl_cons]
    rcases ih (scanEntry st0 x) with ⟨hd, hdb, hall⟩ | ⟨l1, p, l2, heq, hneg, hd, hdb, hgt, hl1, hl2⟩
    · by_cases hx : x.2 < -(1/100) ∧ st0.maxDebt < |x.2|
      · right
        refine ⟨[], x, t, rfl, hx.1, ?_, ?_, hx.2, by simp, ?_⟩
        · rw [hd, scanEntry_maxDebtor, if_pos hx]
        · rw [hdb, scanEntry_maxDebt, if_pos hx]
        · intro q hq hq2
          have hle := hall q hq hq2
          rw [scanEntry_maxDebt, if_pos hx] at hle
          exact hle
      · left
        refine ⟨?_, ?_, ?_⟩
        · rw [hd, scanEntry_maxDebtor, if_neg hx]
        · rw [hdb, scanEntry_maxDebt, if_neg hx]
        · intro q hq hq2
          rcases List.mem_cons.mp hq with he | hqt
          · rw [he] at hq2 ⊢
            exact le_of_not_lt (fun hlt => hx ⟨hq2, hlt⟩)
          · have hle := hall q hqt hq2
            rw [scanEntry_maxDebt, if_neg hx] at hle
            exact hle
    · right
      refine ⟨x :: l1, p, l2, by rw [heq]; rfl, hneg, hd, hdb, ?_, ?_, hl2⟩
      · exact lt_of_le_of_lt (scanEntry_maxDebt_mono st0 x) hgt
      · intro q hq hq2
        rcases List.mem_cons.mp hq with he | hql
        · rw [he] at hq2 ⊢
          exact lt_of_le_of_lt (scanEntry_maxDebt_cover st0 x hq2) hgt
        · exact hl1 q hql hq2

theorem scan_creditor_core (b : List (String × ℚ)) : ∀ (st0 : ScanState),
    ((b.foldl scanEntry st0).maxCreditor = st0.maxCreditor
        ∧ (b.foldl scanEntry st0).maxCredit = st0.maxCredit
        ∧ ∀ q ∈ b, (1/100 : ℚ) < q.2 → q.2 ≤ st0.maxCredit)
      ∨ (∃ l1 p l2, b = l1 ++ p :: l2 ∧ (1/100 : ℚ) < p.2
          ∧ (b.foldl scanEntry st0).maxCreditor = some p.1
          ∧ (b.foldl scanEntry st0).maxCredit = p.2
          ∧ st0.maxCredit < p.2
          ∧ (∀ q ∈ l1, (1/100 : ℚ) < q.2 → q.2 < p.2)
          ∧ (∀ q ∈ l2, (1/100 : ℚ) < q.2 → q.2 ≤ p.2)) := by
  induction b with
  | nil =>
    intro st0
    left
    exact ⟨rfl, rfl, by simp⟩
  | cons x t ih =>
    intro st0
    simp only [List.foldl_cons]
    rcases ih (scanEntry st0 x) with ⟨hd, hdb, hall⟩ | ⟨l1, p, l2, heq, hpos, hd, hdb, hgt, hl1, hl2⟩
    · by_cases hx : (1/100 : ℚ) < x.2 ∧ st0.maxCredit < x.2
      · right
        refine ⟨[], x, t, rfl, hx.1, ?_, ?_, hx.2, by simp, ?_⟩
        · rw [hd, scanEntry_maxCreditor, if_pos hx]
        · rw [hdb, scanEntry_maxCredit, if_pos hx]
        · intro q hq hq2
          have hle := hall q hq hq2
          rw [scanEntry_maxCredit, if_pos hx] at hle
          exact hle
      · left
        refine ⟨?_, ?_, ?_⟩
        · rw [hd, scanEntry_maxCreditor, if_neg hx]
        · rw [hdb, scanEntry_maxCredit, if_neg hx]
        · intro q hq hq2
          rcases List.mem_cons.mp hq with he | hqt
          · rw [he] at hq2 ⊢
            exact le_of_not_lt (fun hlt => hx ⟨hq2, hlt⟩)
          · have hle := hall q hqt hq2
            rw [scanEntry_maxCredit, if_neg hx] at hle
            exact hle
    · right
      refine ⟨x :: l1, p, l2, by rw [heq]; rfl, hpos, hd, hdb, ?_, ?_, hl2⟩
      · exact lt_of_le_of_lt (scanEntry_maxCredit_mono st0 x) hgt
      · intro q hq hq2
        rcases List.mem_cons.mp hq with he | hql
        · rw [he] at hq2 ⊢
          exact lt_of_le_of_lt (scanEntry_maxCredit_cover st0 x hq2) hgt
        · exact hl1 q hql hq2

theorem scan_debtor_none (b : List (String × ℚ))
    (h : (scanBalances b).maxDebtor = none) : ∀ q ∈ b, -(1/100) ≤ q.2 := by
  rcases scan_debtor_core b ⟨none, 0, none, 0⟩ with ⟨_, _, hall⟩ | ⟨l1, p, l2, _, _, hd, _⟩
  · intro q hq
    by_contra hlt
    push_neg at hlt
    have h1 := hall q hq hlt
    have h2 : (0 : ℚ) < |q.2| := abs_pos.mpr (by intro h0; rw [h0] at hlt; norm_num at hlt)
    simp only at h1
    linarith
  · unfold scanBalances at h
    rw [hd] at h
    simp at h

theorem scan_creditor_none (b : List (String × ℚ))
    (h : (scanBalances b).maxCreditor = none) : ∀ q ∈ b, q.2 ≤ 1/100 := by
  rcases scan_creditor_core b ⟨none, 0, none, 0⟩ with ⟨_, _, hall⟩ | ⟨l1, p, l2, _, _, hd, _⟩
  · intro q hq
    by_contra hlt
    push_neg at hlt
    have h1 := hall q hq hlt
    simp only at h1
    linarith
  · unfold scanBalances at h
    rw [hd] at h
    simp at h

theorem scan_debtor_some (b : List (String × ℚ)) (d : String)
    (h : (scanBalances b).maxDebtor = some d) :
    ∃ l1 bd l2, b = l1 ++ (d, bd) :: l2 ∧ bd < -(1/100)
      ∧ (scanBalances b).maxDebt = |bd|
      ∧ (∀ q ∈ b, q.2 < -(1/100) → |q.2| ≤ |bd|)
      ∧ (∀ q ∈ l1, q.2 < -(1/100) → |q.2| < |bd|) := by
  rcases scan_debtor_core b ⟨none, 0, none, 0⟩ with ⟨hd, _, _⟩ | ⟨l1, p, l2, heq, hneg, hd, hdb, _, hl1, hl2⟩
  · unfold scanBalances at h
    rw [hd] at h
    simp at h
  · unfold scanBalances at h
    rw [hd] at h
    have hpd : p.1 = d := Option.some_inj.mp h
    refine ⟨l1, p.2, l2, by rw [← hpd]; exact heq, hneg, by rw [← hdb]; rfl, ?_, hl1⟩
    intro q hq hq2
    rw [heq] at hq
    rcases List.mem_append.mp hq with hql | hqr
    · exact le_of_lt (hl1 q hql hq2)
    · rcases List.mem_cons.mp hqr with he | hql2
      · rw [he]
      · exact hl2 q hql2 hq2

theorem scan_creditor_some (b : List (String × ℚ)) (c : String)
    (h : (scanBalances b).maxCreditor = some c) :
    ∃ l1 bc l2, b = l1 ++ (c, bc) :: l2 ∧ (1/100 : ℚ) < bc
      ∧ (scanBalances b).maxCredit = bc
      ∧ (∀ q ∈ b, (1/100 : ℚ) < q.2 → q.2 ≤ bc)
      ∧ (∀ q ∈ l1, (1/100 : ℚ) < q.2 → q.2 < bc) := by
  rcases scan_creditor_core b ⟨none, 0, none, 0⟩ with ⟨hd, _, _⟩ | ⟨l1, p, l2, heq, hpos, hd, hdb, _, hl1, hl2⟩
  · unfold scanBalances at h
    rw [hd] at h
    simp at h
  · unfold scanBalances at h
    rw [hd] at h
    have hpd : p.1 = c := Option.some_inj.mp h
    refine ⟨l1, p.2, l2, by rw [← hpd]; exact heq, hpos, by rw [← hdb]; rfl, ?_, hl1⟩
    intro q hq hq2
    rw [heq] at hq
    rcases List.mem_append.mp hq with hql | hqr
    · exact le_of_lt (hl1 q hql hq2)
    · rcases List.mem_cons.mp hqr with he | hql2
      · rw [he]
      · exact hl2 q hql2 hq2

-- ============================================
-- One settlement iteration: characterization and effects
-- ============================================

theorem two_mem_le_length {α : Type} (l : List α) (a b : α)
    (ha : a ∈ l) (hb : b ∈ l) (hab : a ≠ b) : 2 ≤ l.length := by
  induction l with
  | nil => simp at ha
  | cons x t ih =>
    rcases List.mem_cons.mp ha with hea | hat
    · rcases List.mem_cons.mp hb with heb | hbt
      · exact absurd (hea.trans heb.symm) hab
      · have h1 : t ≠ [] := List.ne_nil_of_mem hbt
        have h2 := List.length_pos.mpr h1
        simp only [List.length_cons]
        omega
    · rcases List.mem_cons.mp hb with heb | hbt
      · have h1 : t ≠ [] := List.ne_nil_of_mem hat
        have h2 := List.length_pos.mpr h1
        simp only [List.length_cons]
        omega
      · have := ih hat hbt
        simp only [List.length_cons]
        omega

theorem settleIter_some (um : List (String × User)) (b : List (String × ℚ))
    (s : Settlement) (b1 : List (String × ℚ))
    (hnd : (b.map Prod.fst).Nodup)
    (hit : settleIter um b = some (s, b1)) :
    ∃ d bd c bc,
      mapGet b d = some bd ∧ mapGet b c = some bc ∧
      bd < -(1/100) ∧ (1/100 : ℚ) < bc ∧ d ≠ c ∧ d ≠ "" ∧ c ≠ "" ∧
      s = { from_ := d, fromName := nameOr (mapGet um d),
            to_ := c, toName := nameOr (mapGet um c),
            amount := jsRound2 (min |bd| bc) } ∧
      (∀ q ∈ b, q.2 < -(1/100) → |q.2| ≤ |bd|) ∧
      (∀ q ∈ b, (1/100 : ℚ) < q.2 → q.2 ≤ bc) ∧
      (∃ l1 l2, b = l1 ++ (d, bd) :: l2 ∧ (∀ q ∈ l1, q.2 < -(1/100) → |q.2| < |bd|)) ∧
      (∃ l1 l2, b = l1 ++ (c, bc) :: l2 ∧ (∀ q ∈ l1, (1/100 : ℚ) < q.2 → q.2 < bc)) ∧
      b1 = mapSet (mapSet b d (bd + min |bd| bc)) c (bc - min |bd| bc) := by
  unfold settleIter at hit
  cases hd : (scanBalances b).maxDebtor with
  | none =>
    rw [hd] at hit
    simp at hit
  | some d =>
    cases hc : (scanBalances b).maxCreditor with
    | none =>
      rw [hd, hc] at hit
      simp at hit
    | some c =>
      rw [hd, hc] at hit
      dsimp only at hit
      by_cases he : d = "" ∨ c = ""
      · rw [if_pos he] at hit
        simp at hit
      · rw [if_neg he] at hit
        push_neg at he
        obtain ⟨l1, bd, l2, heqd, hbd, hmd, hballd, hl1d⟩ := scan_debtor_some b d hd
        obtain ⟨m1, bc, m2, heqc, hbc, hmc, hballc, hl1c⟩ := scan_creditor_some b c hc
        have hgd : mapGet b d = some bd :=
          mapGet_of_mem_nodup b d bd hnd
            (by rw [heqd]; exact List.mem_append_right _ (List.mem_cons_self _ _))
        have hgc : mapGet b c = some bc :=
          mapGet_of_mem_nodup b c bc hnd
            (by rw [heqc]; exact List.mem_append_right _ (List.mem_cons_self _ _))
        have hdc : d ≠ c := by
          intro hdq
          rw [hdq, hgc] at hgd
          have hb2 : bc = bd := Option.some_inj.mp hgd
          rw [hb2] at hbc
          linarith
        have hsome := Option.some_inj.mp hit
        have hs := congrArg Prod.fst hsome
        have hb1 := congrArg Prod.snd hsome
        simp only at hs hb1
        refine ⟨d, bd, c, bc, hgd, hgc, hbd, hbc, hdc, he.1, he.2, ?_,
          hballd, hballc, ⟨l1, l2, heqd, hl1d⟩, ⟨m1, m2, heqc, hl1c⟩, ?_⟩
        · rw [← hs, hmd, hmc]
        · rw [← hb1, hgd, hgc, hmd, hmc]
          simp

theorem settleIter_effects (um : List (String × User)) (b : List (String × ℚ))
    (s : Settlement) (b1 : List (String × ℚ))
    (hnd : (b.map Prod.fst).Nodup)
    (hit : settleIter um b = some (s, b1)) :
    (b1.map Prod.fst) = (b.map Prod.fst) ∧
    2 ≤ nzCount b ∧
    nzCount b1 < nzCount b ∧
    mapSum b1 = mapSum b ∧
    (∃ a : ℚ, 0 < a ∧ s.amount = jsRound2 a ∧ mapPosSum b1 = mapPosSum b - a ∧
      (allInt b → (∃ z : ℤ, a = (z : ℚ)) ∧ allInt b1)) := by
  obtain ⟨d, bd, c, bc, hgd, hgc, hbd, hbc, hdc, _, _, hs, _, _, _, _, hb1⟩ :=
    settleIter_some um b s b1 hnd hit
  set a := min |bd| bc with ha
  have habd : |bd| = -bd := abs_of_neg (by linarith)
  have ha_pos : 0 < a := lt_min (by rw [habd]; linarith) (by linarith)
  have ha_le_d : a ≤ -bd := by rw [← habd]; exact min_le_left _ _
  have ha_le_c : a ≤ bc := min_le_right _ _
  have hgd1 : mapGet (mapSet b d (bd + a)) c = some bc := by
    rw [mapGet_mapSet, if_neg hdc]
    exact hgc
  have hk1 : (mapSet b d (bd + a)).map Prod.fst = b.map Prod.fst :=
    keys_mapSet_mem b d _ bd hgd
  have hkeys : b1.map Prod.fst = b.map Prod.fst := by
    rw [hb1, keys_mapSet_mem _ c _ bc hgd1, hk1]
  have hmemd : (d, bd) ∈ b := mapGet_mem b d bd hgd
  have hmemc : (c, bc) ∈ b := mapGet_mem b c bc hgc
  have htwo : 2 ≤ nzCount b := by
    have hfd : (d, bd) ∈ b.filter (fun p => qNZ p.2) :=
      List.mem_filter.mpr ⟨hmemd, qNZ_of_neg bd hbd⟩
    have hfc : (c, bc) ∈ b.filter (fun p => qNZ p.2) :=
      List.mem_filter.mpr ⟨hmemc, qNZ_of_pos bc hbc⟩
    have hne : (d, bd) ≠ (c, bc) := fun hp => hdc (congrArg Prod.fst hp)
    exact two_mem_le_length _ _ _ hfd hfc hne
  have e1 := nzCount_mapSet b d (bd + a) bd hgd
  have e2 := nzCount_mapSet (mapSet b d (bd + a)) c (bc - a) bc hgd1
  rw [← hb1] at e2
  have hq0 : qNZ (0 : ℚ) = false := by norm_num [qNZ]
  have hzero : (if qNZ (bd + a) then (1 : ℕ) else 0) + (if qNZ (bc - a) then 1 else 0) ≤ 1 := by
    rcases min_cases |bd| bc with ⟨hmin, _⟩ | ⟨hmin, _⟩
    · have hz : bd + a = 0 := by rw [ha, hmin, habd]; ring
      rw [hz, hq0]
      simp only [Bool.false_eq_true, if_false, zero_add]
      split <;> omega
    · have hz : bc - a = 0 := by rw [ha, hmin]; ring
      rw [hz, hq0]
      simp only [Bool.false_eq_true, if_false, add_zero]
      split <;> omega
  rw [qNZ_of_neg bd hbd] at e1
  rw [qNZ_of_pos bc hbc] at e2
  norm_num at e1 e2
  have hnz : nzCount b1 < nzCount b := by omega
  have s1 := mapSum_mapSet b d (bd + a) bd hgd
  have s2 := mapSum_mapSet (mapSet b d (bd + a)) c (bc - a) bc hgd1
  have hsum : mapSum b1 = mapSum b := by
    rw [hb1, s2, s1]
    ring
  refine ⟨hkeys, htwo, hnz, hsum, a, ha_pos, by rw [hs], ?_, ?_⟩
  · have p1 := mapPosSum_mapSet b d (bd + a) bd hgd
    have p2 := mapPosSum_mapSet (mapSet b d (bd + a)) c (bc - a) bc hgd1
    rw [hb1, p2, p1,
      max_eq_right (show bd ≤ 0 from by linarith),
      max_eq_right (show bd + a ≤ 0 from by linarith),
      max_eq_left (show (0:ℚ) ≤ bc from by linarith),
      max_eq_left (show (0:ℚ) ≤ bc - a from by linarith)]
    ring
  · intro hint
    obtain ⟨zd, hzd⟩ : ∃ z : ℤ, bd = (z : ℚ) := hint _ hmemd
    obtain ⟨zc, hzc⟩ : ∃ z : ℤ, bc = (z : ℚ) := hint _ hmemc
    have hza : a = ((min |zd| zc : ℤ) : ℚ) := by
      rw [ha, hzd, hzc]
      push_cast
      rfl
    refine ⟨⟨min |zd| zc, hza⟩, ?_⟩
    intro p hp
    rw [hb1] at hp
    rcases mem_mapSet _ _ _ _ hp with hp2 | hpe
    · rcases mem_mapSet _ _ _ _ hp2 with hp3 | hpe2
      · exact hint p hp3
      · refine ⟨zd + min |zd| zc, ?_⟩
        rw [hpe2]
        show bd + a = ((zd + min |zd| zc : ℤ) : ℚ)
        rw [hzd, hza]
        push_cast
        ring
    · refine ⟨zc - min |zd| zc, ?_⟩
      rw [hpe]
      show bc - a = ((zc - min |zd| zc : ℤ) : ℚ)
      rw [hzc, hza]
      push_cast
      ring

-- ============================================
-- Loop lemmas
-- ============================================

theorem settleLoop_succ (um : List (String × User)) (n : ℕ) (b : List (String × ℚ)) :
    settleLoop um (n + 1) b = match settleIter um b with
      | none => ([], true)
      | some (s, b1) => (s :: (settleLoop um n b1).1, (settleLoop um n b1).2) := by
  conv_lhs => unfold settleLoop

theorem settleLoop_flag (um : List (String × User)) :
    ∀ (fuel : ℕ) (b : List (String × ℚ)), (b.map Prod.fst).Nodup → nzCount b < fuel →
    (settleLoop um fuel b).2 = true := by
  intro fuel
  induction fuel with
  | zero =>
    intro b _ h
    exact absurd h (Nat.not_lt_zero _)
  | succ n ih =>
    intro b hnd h
    cases hit : settleIter um b with
    | none => rw [settleLoop_succ, hit]
    | some sb =>
      obtain ⟨s, b1⟩ := sb
      obtain ⟨hkeys, _, hnz, _, _⟩ := settleIter_effects um b s b1 hnd hit
      have hnd1 : (b1.map Prod.fst).Nodup := by rw [hkeys]; exact hnd
      rw [settleLoop_succ, hit]
      exact ih b1 hnd1 (by omega)

theorem settleLoop_count (um : List (String × User)) :
    ∀ (fuel : ℕ) (b : List (String × ℚ)), (b.map Prod.fst).Nodup →
    (settleLoop um fuel b).1.length + 1 ≤ nzCount b ∨ (settleLoop um fuel b).1.length = 0 := by
  intro fuel
  induction fuel with
  | zero =>
    intro b _
    right
    rfl
  | succ n ih =>
    intro b hnd
    cases hit : settleIter um b with
    | none =>
      right
      rw [settleLoop_succ, hit]
      rfl
    | some sb =>
      obtain ⟨s, b1⟩ := sb
      obtain ⟨hkeys, htwo, hnz, _, _⟩ := settleIter_effects um b s b1 hnd hit
      have hnd1 : (b1.map Prod.fst).Nodup := by rw [hkeys]; exact hnd
      left
      rw [settleLoop_succ, hit]
      rcases ih b1 hnd1 with hle | hzero
      · simp only [List.length_cons]
        omega
      · simp only [List.length_cons, hzero]
        omega

theorem mapPosSum_eq_mapSum_of_nonneg (b : List (String × ℚ)) (h : ∀ p ∈ b, 0 ≤ p.2) :
    mapPosSum b = mapSum b := by
  induction b with
  | nil => rfl
  | cons p t ih =>
    simp only [mapPosSum, mapSum, List.map_cons, List.sum_cons] at *
    rw [max_eq_left (h p (List.mem_cons_self p t)),
      ih (fun q hq => h q (List.mem_cons_of_mem p hq))]

theorem mapPosSum_zero_of_nonpos (b : List (String × ℚ)) (h : ∀ p ∈ b, p.2 ≤ 0) :
    mapPosSum b = 0 := by
  induction b with
  | nil => rfl
  | cons p t ih =>
    simp only [mapPosSum, List.map_cons, List.sum_cons] at *
    rw [max_eq_right (h p (List.mem_cons_self p t)),
      ih (fun q hq => h q (List.mem_cons_of_mem p hq))]
    ring

theorem int_cast_nonneg_of_ge_negEps (z : ℤ) (h : -(1/100 : ℚ) ≤ (z : ℚ)) : (0 : ℚ) ≤ (z : ℚ) := by
  by_contra hneg
  push_neg at hneg
  have hz : z < 0 := by exact_mod_cast hneg
  have hz1 : z ≤ -1 := by omega
  have : (z : ℚ) ≤ -1 := by exact_mod_cast hz1
  linarith

theorem int_cast_nonpos_of_le_eps (z : ℤ) (h : (z : ℚ) ≤ 1/100) : (z : ℚ) ≤ 0 := by
  by_contra hpos
  push_neg at hpos
  have hz : 0 < z := by exact_mod_cast hpos
  have hz1 : 1 ≤ z := by omega
  have : (1 : ℚ) ≤ (z : ℚ) := by exact_mod_cast hz1
  linarith

theorem settleIter_none_posSum (um : List (String × User)) (b : List (String × ℚ))
    (hint : allInt b) (hne : ∀ k ∈ b.map Prod.fst, k ≠ "")
    (hsum : mapSum b = 0) (hit : settleIter um b = none) : mapPosSum b = 0 := by
  unfold settleIter at hit
  cases hd : (scanBalances b).maxDebtor with
  | none =>
    have hall := scan_debtor_none b hd
    have hpos : ∀ p ∈ b, 0 ≤ p.2 := by
      intro p hp
      obtain ⟨z, hz⟩ := hint p hp
      rw [hz]
      exact int_cast_nonneg_of_ge_negEps z (hz ▸ hall p hp)
    rw [mapPosSum_eq_mapSum_of_nonneg b hpos, hsum]
  | some d =>
    cases hc : (scanBalances b).maxCreditor with
    | none =>
      have hall := scan_creditor_none b hc
      have hnonpos : ∀ p ∈ b, p.2 ≤ 0 := by
        intro p hp
        obtain ⟨z, hz⟩ := hint p hp
        rw [hz]
        exact int_cast_nonpos_of_le_eps z (hz ▸ hall p hp)
      exact mapPosSum_zero_of_nonpos b hnonpos
    | some c =>
      rw [hd, hc] at hit
      dsimp only at hit
      by_cases he : d = "" ∨ c = ""
      · exfalso
        obtain ⟨l1, bd, l2, heqd, _⟩ := scan_debtor_some b d hd
        obtain ⟨m1, bc, m2, heqc, _⟩ := scan_creditor_some b c hc
        have hdk : d ∈ b.map Prod.fst := by
          rw [heqd]
          exact List.mem_map.mpr
            ⟨(d, bd), List.mem_append_right _ (List.mem_cons_self _ _), rfl⟩
        have hck : c ∈ b.map Prod.fst := by
          rw [heqc]
          exact List.mem_map.mpr
            ⟨(c, bc), List.mem_append_right _ (List.mem_cons_self _ _), rfl⟩
        rcases he with he | he
        · exact hne d hdk he
        · exact hne c hck he
      · rw [if_neg he] at hit
        simp at hit

theorem sumAmounts_cons (s : Settlement) (t : List Settlement) :
    sumAmounts (s :: t) = s.amount + sumAmounts t := by
  simp [sumAmounts]

theorem settleLoop_posSum (um : List (String × User)) :
    ∀ (fuel : ℕ) (b : List (String × ℚ)), (b.map Prod.fst).Nodup → allInt b →
    (∀ k ∈ b.map Prod.fst, k ≠ "") → mapSum b = 0 → nzCount b < fuel →
    sumAmounts (settleLoop um fuel b).1 = mapPosSum b := by
  intro fuel
  induction fuel with
  | zero =>
    intro b _ _ _ _ h
    exact absurd h (Nat.not_lt_zero _)
  | succ n ih =>
    intro b hnd hint hne hsum hlt
    cases hit : settleIter um b with
    | none =>
      rw [settleLoop_succ, hit]
      rw [show sumAmounts [] = 0 from rfl,
        settleIter_none_posSum um b hint hne hsum hit]
    | some sb =>
      obtain ⟨s, b1⟩ := sb
      obtain ⟨hkeys, _, hnz, hsum1, a, ha_pos, hsa, hps, hintc⟩ :=
        settleIter_effects um b s b1 hnd hit
      obtain ⟨⟨z, hz⟩, hint1⟩ := hintc hint
      have hnd1 : (b1.map Prod.fst).Nodup := by rw [hkeys]; exact hnd
      have hne1 : ∀ k ∈ b1.map Prod.fst, k ≠ "" := by rw [hkeys]; exact hne
      have hsum1z : mapSum b1 = 0 := by rw [hsum1, hsum]
      rw [settleLoop_succ, hit]
      rw [sumAmounts_cons, ih b1 hnd1 hint1 hne1 hsum1z (by omega), hsa, hps, hz,
        jsRound2_intCast]
      ring

theorem settleLoop_from_neg (um : List (String × User)) :
    ∀ (fuel : ℕ) (b : List (String × ℚ)), (b.map Prod.fst).Nodup →
    ∀ s ∈ (settleLoop um fuel b).1, ∃ v, mapGet b s.from_ = some v ∧ v < 0 := by
  intro fuel
  induction fuel with
  | zero =>
    intro b _ s hs
    simp [settleLoop] at hs
  | succ n ih =>
    intro b hnd s hs
    cases hit : settleIter um b with
    | none =>
      rw [settleLoop_succ, hit] at hs
      simp at hs
    | some sb =>
      obtain ⟨s0, b1⟩ := sb
      rw [settleLoop_succ, hit] at hs
      obtain ⟨d, bd, c, bc, hgd, hgc, hbd, hbc, hdc, _, _, hs0, _, _, _, _, hb1⟩ :=
        settleIter_some um b s0 b1 hnd hit
      have hkeys : b1.map Prod.fst = b.map Prod.fst := by
        rw [hb1, keys_mapSet_mem _ c _ bc
          (by rw [mapGet_mapSet, if_neg hdc]; exact hgc),
          keys_mapSet_mem b d _ bd hgd]
      have hnd1 : (b1.map Prod.fst).Nodup := by rw [hkeys]; exact hnd
      rcases List.mem_cons.mp hs with he | hrest
      · refine ⟨bd, ?_, by linarith⟩
        rw [he, hs0]
        exact hgd
      · obtain ⟨v, hv1, hv2⟩ := ih b1 hnd1 s hrest
        rw [hb1, mapGet_mapSet, mapGet_mapSet] at hv1
        by_cases hxc : c = s.from_
        · rw [if_pos hxc] at hv1
          have hveq : bc - min |bd| bc = v := Option.some_inj.mp hv1
          have : (0 : ℚ) ≤ bc - min |bd| bc := by
            have := min_le_right |bd| bc
            linarith
          linarith [hveq ▸ this]
        · rw [if_neg hxc] at hv1
          by_cases hxd : d = s.from_
          · rw [if_pos hxd] at hv1
            refine ⟨bd, by rw [← hxd]; exact hgd, by linarith⟩
          · rw [if_neg hxd] at hv1
            exact ⟨v, hv1, hv2⟩

theorem settleLoop_to_pos (um : List (String × User)) :
    ∀ (fuel : ℕ) (b : List (String × ℚ)), (b.map Prod.fst).Nodup →
    ∀ s ∈ (settleLoop um fuel b).1, ∃ v, mapGet b s.to_ = some v ∧ 0 < v := by
  intro fuel
  induction fuel with
  | zero =>
    intro b _ s hs
    simp [settleLoop] at hs
  | succ n ih =>
    intro b hnd s hs
    cases hit : settleIter um b with
    | none =>
      rw [settleLoop_succ, hit] at hs
      simp at hs
    | some sb =>
      obtain ⟨s0, b1⟩ := sb
      rw [settleLoop_succ, hit] at hs
      obtain ⟨d, bd, c, bc, hgd, hgc, hbd, hbc, hdc, _, _, hs0, _, _, _, _, hb1⟩ :=
        settleIter_some um b s0 b1 hnd hit
      have hkeys : b1.map Prod.fst = b.map Prod.fst := by
        rw [hb1, keys_mapSet_mem _ c _ bc
          (by rw [mapGet_mapSet, if_neg hdc]; exact hgc),
          keys_mapSet_mem b d _ bd hgd]
      have hnd1 : (b1.map Prod.fst).Nodup := by rw [hkeys]; exact hnd
      rcases List.mem_cons.mp hs with he | hrest
      · refine ⟨bc, ?_, by linarith⟩
        rw [he, hs0]
        exact hgc
      · obtain ⟨v, hv1, hv2⟩ := ih b1 hnd1 s hrest
        rw [hb1, mapGet_mapSet, mapGet_mapSet] at hv1
        by_cases hxc : c = s.to_
        · rw [if_pos hxc] at hv1
          refine ⟨bc, by rw [← hxc]; exact hgc, by linarith⟩
        · rw [if_neg hxc] at hv1
          by_cases hxd : d = s.to_
          · rw [if_pos hxd] at hv1
            have hveq : bd + min |bd| bc = v := Option.some_inj.mp hv1
            have habd : |bd| = -bd := abs_of_neg (by linarith)
            have hle : bd + min |bd| bc ≤ 0 := by
              rw [habd]
              have h2 := min_le_left (-bd) bc
              linarith
            linarith [hveq ▸ hle]
          · rw [if_neg hxd] at hv1
            exact ⟨v, hv1, hv2⟩

-- ============================================
-- buildBalanceMap bridging lemmas
-- ============================================

theorem mapSet_notMem_append {α : Type} (m : List (String × α)) (k : String) (v : α)
    (h : k ∉ m.map Prod.fst) : mapSet m k v = m ++ [(k, v)] := by
  induction m with
  | nil => rfl
  | cons p t ih =>
    have h1 : ¬ p.1 = k := by
      intro he
      exact h (by simp [he])
    rw [show mapSet (p :: t) k v = p :: mapSet t k v from by simp [mapSet, h1],
      ih (fun hm => h (by simp [hm]))]
    rfl

theorem buildBalanceMap_fold_eq :
    ∀ (nbs : List NetBalance) (m : List (String × ℚ)),
    (nbs.map NetBalance.userId).Nodup →
    (∀ nb ∈ nbs, nb.userId ∉ m.map Prod.fst) →
    nbs.foldl (fun m nb => mapSet m nb.userId nb.balance) m
      = m ++ nbs.map (fun nb => (nb.userId, nb.balance)) := by
  intro nbs
  induction nbs with
  | nil =>
    intro m _ _
    simp
  | cons nb rest ih =>
    intro m hnd hdisj
    simp only [List.foldl_cons]
    rw [mapSet_notMem_append m _ _ (hdisj nb (List.mem_cons_self nb rest))]
    have hnd2 : (rest.map NetBalance.userId).Nodup :=
      (List.nodup_cons.mp (by simpa using hnd)).2
    have hhead : nb.userId ∉ rest.map NetBalance.userId :=
      (List.nodup_cons.mp (by simpa using hnd)).1
    rw [ih (m ++ [(nb.userId, nb.balance)]) hnd2 ?_]
    · simp
    · intro x hx
      simp only [List.map_append, List.mem_append]
      push_neg
      refine ⟨hdisj x (List.mem_cons_of_mem nb hx), ?_⟩
      simp only [List.map_cons, List.map_nil, List.mem_singleton]
      intro he
      exact hhead (List.mem_map.mpr ⟨x, hx, he⟩)

theorem buildBalanceMap_eq (nbs : List NetBalance)
    (hnd : (nbs.map NetBalance.userId).Nodup) :
    buildBalanceMap nbs = nbs.map (fun nb => (nb.userId, nb.balance)) := by
  unfold buildBalanceMap
  rw [buildBalanceMap_fold_eq nbs [] hnd (by simp)]
  simp

theorem buildBalanceMap_keys_nodup (nbs : List NetBalance) :
    ((buildBalanceMap nbs).map Prod.fst).Nodup := by
  have gen : ∀ (l : List NetBalance) (m : List (String × ℚ)), (m.map Prod.fst).Nodup →
      (((l.foldl (fun m nb => mapSet m nb.userId nb.balance) m)).map Prod.fst).Nodup := by
    intro l
    induction l with
    | nil => intro m hm; simpa
    | cons nb rest ih =>
      intro m hm
      simp only [List.foldl_cons]
      exact ih _ (keys_nodup_mapSet m _ _ hm)
  exact gen nbs [] (by simp)

theorem buildBalanceMap_length_le (nbs : List NetBalance) :
    (buildBalanceMap nbs).length ≤ nbs.length := by
  have gen : ∀ (l : List NetBalance) (m : List (String × ℚ)),
      ((l.foldl (fun m nb => mapSet m nb.userId nb.balance) m)).length ≤ m.length + l.length := by
    intro l
    induction l with
    | nil => intro m; simp
    | cons nb rest ih =>
      intro m
      simp only [List.foldl_cons, List.length_cons]
      have h1 := ih (mapSet m nb.userId nb.balance)
      have h2 := mapSet_length_le m nb.userId nb.balance
      omega
  have := gen nbs []
  simpa using this

theorem buildBalanceMap_keys_sub :
    ∀ (nbs : List NetBalance) (m : List (String × ℚ)) (k : String),
    k ∈ (nbs.foldl (fun m nb => mapSet m nb.userId nb.balance) m).map Prod.fst →
    k ∈ m.map Prod.fst ∨ k ∈ nbs.map NetBalance.userId := by
  intro nbs
  induction nbs with
  | nil =>
    intro m k h
    left
    simpa using h
  | cons nb rest ih =>
    intro m k h
    simp only [List.foldl_cons] at h
    rcases ih (mapSet m nb.userId nb.balance) k h with h1 | h2
    · rw [keys_mapSet] at h1
      by_cases hmem : nb.userId ∈ m.map Prod.fst
      · rw [if_pos hmem] at h1
        left
        exact h1
      · rw [if_neg hmem] at h1
        rcases List.mem_append.mp h1 with h3 | h3
        · left
          exact h3
        · right
          simp only [List.mem_singleton] at h3
          simp [h3]
    · right
      simp [h2]

theorem nzCount_le_length (b : List (String × ℚ)) : nzCount b ≤ b.length :=
  List.length_filter_le _ _

-- ============================================
-- C8: totality of the core
-- ============================================

/-- C8: the three core functions are total on all inputs: the two pure
folds return one record per input member, and the only unbounded
construct — the settlement `while (true)` loop — provably exits through
its `break` within `netBalances.length + 1` iterations (flag `true`),
for every input including empty lists, a single member, zero amounts and
unknown member ids; every map lookup is modelled by a guarded
`Option`/default read, so no failing branch exists. -/
theorem claim_C8_totality (users : List User) (expenses : List Expense)
    (netBalances : List NetBalance) (cs : List ChoreAssignment) :
    (calculateNetBalances users expenses).length = users.length ∧
    (settleLoop (buildUserMap users) (netBalances.length + 1) (buildBalanceMap netBalances)).2 = true ∧
    (computeFairnessScore users expenses cs).length = users.length := by
  refine ⟨?_, ?_, ?_⟩
  · rw [calculateNetBalances_eq]
    simp
  · apply settleLoop_flag _ _ _ (buildBalanceMap_keys_nodup netBalances)
    have h1 := nzCount_le_length (buildBalanceMap netBalances)
    have h2 := buildBalanceMap_length_le netBalances
    omega
  · rw [computeFairnessScore_eq]
    simp

-- ============================================
-- C3: termination and bounded transaction count
-- ============================================

/-- C3 (amended): the greedy loop always terminates (it exits through its
`break` within `netBalances.length + 1` iterations, for every input);
and the settlement count is at most `users.length - 1` PROVIDED every
net-balance user id occurs among the members — with ids outside the
member list the count is only bounded by the number of distinct ids in
`netBalances` minus one, and can exceed `users.length - 1` (see the
counterexample). -/
theorem claim_C3_termination_bound (users : List User) (netBalances : List NetBalance)
    (h : ∀ nb ∈ netBalances, nb.userId ∈ users.map User.id) :
    (settleLoop (buildUserMap users) (netBalances.length + 1) (buildBalanceMap netBalances)).2 = true ∧
    (simplifySettlements users netBalances).length ≤ users.length - 1 := by
  constructor
  · apply settleLoop_flag _ _ _ (buildBalanceMap_keys_nodup netBalances)
    have h1 := nzCount_le_length (buildBalanceMap netBalances)
    have h2 := buildBalanceMap_length_le netBalances
    omega
  · have hcount := settleLoop_count (buildUserMap users) (netBalances.length + 1)
      (buildBalanceMap netBalances) (buildBalanceMap_keys_nodup netBalances)
    have hnz := nzCount_le_length (buildBalanceMap netBalances)
    have hkeylen : ((buildBalanceMap netBalances).map Prod.fst).length
        = (buildBalanceMap netBalances).length := List.length_map _ _
    have hsub : (buildBalanceMap netBalances).map Prod.fst ⊆ users.map User.id := by
      intro k hk
      rcases buildBalanceMap_keys_sub netBalances [] k hk with h1 | h2
      · simp at h1
      · obtain ⟨nb, hnb, he⟩ := List.mem_map.mp h2
        rw [← he]
        exact h nb hnb
    have hlen : ((buildBalanceMap netBalances).map Prod.fst).length ≤ (users.map User.id).length :=
      ((buildBalanceMap_keys_nodup netBalances).subperm hsub).length_le
    have humap : (users.map User.id).length = users.length := List.length_map _ _
    unfold simplifySettlements
    omega

-- ============================================
-- C2: settlement completeness
-- ============================================

/-- C2 (amended): if the net balances carry pairwise-distinct, nonempty
user ids, every balance is an integer number of minor units, and the
balances sum to zero, then the total of the settlement amounts returned
by `simplifySettlements` equals the total positive balance
`Σ max(balance, 0)`. Without the zero-sum precondition the claim fails
(see the counterexample: a lone creditor produces no settlements). -/
theorem claim_C2_completeness (users : List User) (netBalances : List NetBalance)
    (hnd : (netBalances.map NetBalance.userId).Nodup)
    (hne : ∀ nb ∈ netBalances, nb.userId ≠ "")
    (hint : ∀ nb ∈ netBalances, ∃ z : ℤ, nb.balance = (z : ℚ))
    (hsum : (netBalances.map NetBalance.balance).sum = 0) :
    sumAmounts (simplifySettlements users netBalances)
      = (netBalances.map (fun nb => max nb.balance 0)).sum := by
  have heq := buildBalanceMap_eq netBalances hnd
  have hkeys : (buildBalanceMap netBalances).map Prod.fst
      = netBalances.map NetBalance.userId := by
    rw [heq, List.map_map]
    rfl
  unfold simplifySettlements
  rw [settleLoop_posSum (buildUserMap users) (netBalances.length + 1)
      (buildBalanceMap netBalances)
      (buildBalanceMap_keys_nodup netBalances)
      (by
        intro p hp
        rw [heq] at hp
        obtain ⟨nb, hnb, he⟩ := List.mem_map.mp hp
        rw [← he]
        exact hint nb hnb)
      (by
        rw [hkeys]
        intro k hk
        obtain ⟨nb, hnb, he⟩ := List.mem_map.mp hk
        rw [← he]
        exact hne nb hnb)
      (by
        unfold mapSum
        rw [heq, List.map_map]
        exact hsum)
      (by
        have h1 := nzCount_le_length (buildBalanceMap netBalances)
        have h2 := buildBalanceMap_length_le netBalances
        omega)]
  unfold mapPosSum
  rw [heq, List.map_map]
  rfl

-- ============================================
-- C10: payer/payee disjointness
-- ============================================

/-- C10: across the whole settlement list returned by
`simplifySettlements` — for any input — no user id ever appears both as
the `from` of one settlement and the `to` of any settlement (in
particular `from ≠ to` inside every settlement): every `from` holds a
strictly negative working balance when scheduled and every `to` a
strictly positive one, and balances never change sign during the loop. -/
theorem claim_C10_sides_disjoint (users : List User) (netBalances : List NetBalance) :
    ∀ s1 ∈ simplifySettlements users netBalances,
    ∀ s2 ∈ simplifySettlements users netBalances, s1.from_ ≠ s2.to_ := by
  intro s1 h1 s2 h2
  have hnd := buildBalanceMap_keys_nodup netBalances
  obtain ⟨v, hv1, hv2⟩ := settleLoop_from_neg (buildUserMap users)
    (netBalances.length + 1) (buildBalanceMap netBalances) hnd s1 h1
  obtain ⟨w, hw1, hw2⟩ := settleLoop_to_pos (buildUserMap users)
    (netBalances.length + 1) (buildBalanceMap netBalances) hnd s2 h2
  intro he
  rw [he, hw1] at hv1
  have hvw : w = v := Option.some_inj.mp hv1
  rw [hvw] at hw2
  linarith

-- ============================================
-- C6: the greedy selection step
-- ============================================

/-- C6 (amended): whenever one iteration of the settlement loop emits a
settlement, its `from` is the entry with the largest debt magnitude
beyond the 0.01 epsilon (every strictly earlier such entry is strictly
smaller — ties keep the earlier entry) and its `to` the entry with the
largest credit beyond the epsilon under the same tie rule; the emitted
amount is `Math.round(min(|debtor|, creditor) * 100) / 100` — the
rounded min, not the raw min of the claim — while the UNROUNDED min is
added to the debtor's balance and subtracted from the creditor's. -/
theorem claim_C6_greedy_step (um : List (String × User)) (b : List (String × ℚ))
    (s : Settlement) (b1 : List (String × ℚ))
    (hnd : (b.map Prod.fst).Nodup)
    (hit : settleIter um b = some (s, b1)) :
    ∃ bd bc,
      mapGet b s.from_ = some bd ∧ mapGet b s.to_ = some bc ∧
      bd < -(1/100) ∧ (1/100 : ℚ) < bc ∧
      (∀ q ∈ b, q.2 < -(1/100) → |q.2| ≤ |bd|) ∧
      (∀ q ∈ b, (1/100 : ℚ) < q.2 → q.2 ≤ bc) ∧
      (∃ l1 l2, b = l1 ++ (s.from_, bd) :: l2 ∧ ∀ q ∈ l1, q.2 < -(1/100) → |q.2| < |bd|) ∧
      (∃ l1 l2, b = l1 ++ (s.to_, bc) :: l2 ∧ ∀ q ∈ l1, (1/100 : ℚ) < q.2 → q.2 < bc) ∧
      s.amount = jsRound2 (min |bd| bc) ∧
      b1 = mapSet (mapSet b s.from_ (bd + min |bd| bc)) s.to_ (bc - min |bd| bc) := by
  obtain ⟨d, bd, c, bc, hgd, hgc, hbd, hbc, hdc, _, _, hs0, hballd, hballc, hdecd, hdecc, hb1⟩ :=
    settleIter_some um b s b1 hnd hit
  have hf : s.from_ = d := by rw [hs0]
  have ht : s.to_ = c := by rw [hs0]
  refine ⟨bd, bc, by rw [hf]; exact hgd, by rw [ht]; exact hgc, hbd, hbc, hballd, hballc,
    ?_, ?_, by rw [hs0], ?_⟩
  · rw [hf]
    exact hdecd
  · rw [ht]
    exact hdecc
  · rw [hf, ht]
    exact hb1

-- ============================================
-- Concrete settlement evaluations
-- ============================================

/-- Two net balances +5 and -5 under ids "a" and "b". -/
def nbsAB : List NetBalance :=
  [{ userId := "a", userName := "A", balance := 5 },
   { userId := "b", userName := "B", balance := -5 }]

/-- A member list containing only an id unrelated to `nbsAB`. -/
def userU : List User := [{ id := "u", name := "U" }]

/-- The member list matching the ids of `nbsAB`. -/
def usersAB : List User := [{ id := "a", name := "A" }, { id := "b", name := "B" }]

theorem simplify_nbsAB_eval :
    simplifySettlements userU nbsAB
      = [{ from_ := "b", fromName := "Unknown", to_ := "a", toName := "Unknown", amount := 5 }] := by
  simp only [simplifySettlements, buildBalanceMap, buildUserMap, nbsAB, userU,
    List.foldl_cons, List.foldl_nil, List.length_cons, List.length_nil]
  repeat (first
    | (simp [settleLoop, settleIter, scanBalances, scanEntry, scanDebit, scanCredit,
        List.foldl_cons, List.foldl_nil, mapSet, mapGet, nameOr, jsRound2, jsRound, abs])
    | (norm_num [mapSet, mapGet, jsRound2, jsRound]))

/-- A lone positive balance: the loop finds no debtor and emits nothing. -/
def nbsLone : List NetBalance := [{ userId := "a", userName := "A", balance := 5 }]

theorem simplify_lone_eval : simplifySettlements [] nbsLone = [] := by
  simp only [simplifySettlements, buildBalanceMap, buildUserMap, nbsLone,
    List.foldl_cons, List.foldl_nil, List.length_cons, List.length_nil]
  repeat (first
    | (simp [settleLoop, settleIter, scanBalances, scanEntry, scanDebit, scanCredit,
        List.foldl_cons, List.foldl_nil, mapSet, mapGet, nameOr, jsRound2, jsRound, abs])
    | (norm_num [mapSet, mapGet, jsRound2, jsRound]))

/-- Balances -0.0151 and +5: the emitted amount gets rounded to cents. -/
def nbsFrac : List NetBalance :=
  [{ userId := "a", userName := "A", balance := -(151/10000) },
   { userId := "b", userName := "B", balance := 5 }]

theorem simplify_frac_eval :
    simplifySettlements [] nbsFrac
      = [{ from_ := "a", fromName := "Unknown", to_ := "b", toName := "Unknown",
           amount := 1/50 }] := by
  simp only [simplifySettlements, buildBalanceMap, buildUserMap, nbsFrac,
    List.foldl_cons, List.foldl_nil, List.length_cons, List.length_nil]
  repeat (first
    | (simp [settleLoop, settleIter, scanBalances, scanEntry, scanDebit, scanCredit,
        List.foldl_cons, List.foldl_nil, mapSet, mapGet, nameOr, jsRound2, jsRound, abs])
    | (norm_num [mapSet, mapGet, jsRound2, jsRound]))

theorem settleIter_ab_eval :
    settleIter [] [("a", (-5 : ℚ)), ("b", (5 : ℚ))]
      = some ({ from_ := "a", fromName := "Unknown", to_ := "b", toName := "Unknown",
                amount := 5 },
              [("a", (0 : ℚ)), ("b", (0 : ℚ))]) := by
  repeat (first
    | (simp [settleIter, scanBalances, scanEntry, scanDebit, scanCredit,
        List.foldl_cons, List.foldl_nil, mapSet, mapGet, nameOr, jsRound2, jsRound, abs])
    | (norm_num [mapSet, mapGet, jsRound2, jsRound]))

-- ============================================
-- C3: counterexample and witness
-- ============================================

/-- C3 (counterexample): with one member and two net balances under ids
not in the member list, the loop emits 1 settlement, exceeding
`members.length - 1 = 0`; the `members.length - 1` bound fails when net
balances carry ids outside the member list. (Termination itself holds
for every input, see the amended theorem.) -/
theorem claim_C3_counterexample :
    (simplifySettlements userU nbsAB).length = 1 ∧
    ¬ ((simplifySettlements userU nbsAB).length ≤ userU.length - 1) := by
  rw [simplify_nbsAB_eval]
  refine ⟨rfl, ?_⟩
  simp [userU]

/-- C3 witness: two members matching the two net balances; the loop exits
through its break and emits at most `2 - 1` settlements. -/
theorem claim_C3_termination_bound_witness :
    (∀ nb ∈ nbsAB, nb.userId ∈ usersAB.map User.id) ∧
    (settleLoop (buildUserMap usersAB) (nbsAB.length + 1) (buildBalanceMap nbsAB)).2 = true ∧
    (simplifySettlements usersAB nbsAB).length ≤ usersAB.length - 1 :=
  ⟨by decide,
   (claim_C3_termination_bound usersAB nbsAB (by decide)).1,
   (claim_C3_termination_bound usersAB nbsAB (by decide)).2⟩

-- ============================================
-- C2: counterexample and witness
-- ============================================

/-- C2 (counterexample): a single member with a positive balance (the
balances do NOT sum to zero) yields no settlements at all, so
`Σ Settlement.amount = 0` while `Σ max(balance, 0) = 5`; the claim is
false without the zero-sum precondition. -/
theorem claim_C2_counterexample :
    sumAmounts (simplifySettlements [] nbsLone) = 0 ∧
    (nbsLone.map (fun nb => max nb.balance 0)).sum = 5 ∧
    (0 : ℚ) ≠ 5 := by
  refine ⟨?_, ?_, by norm_num⟩
  · rw [simplify_lone_eval]
    rfl
  · simp [nbsLone]

/-- C2 witness: balances +5 and -5 with distinct nonempty integer ids
summing to zero; the settlement amounts sum to the positive balance
total. -/
theorem claim_C2_completeness_witness :
    (nbsAB.map NetBalance.userId).Nodup ∧
    (nbsAB.map NetBalance.balance).sum = 0 ∧
    sumAmounts (simplifySettlements userU nbsAB)
      = (nbsAB.map (fun nb => max nb.balance 0)).sum :=
  ⟨by decide,
   by simp [nbsAB],
   claim_C2_completeness userU nbsAB (by decide) (by decide)
     (by
       intro nb hnb
       rcases List.mem_cons.mp hnb with he | hnb2
       · exact ⟨5, by rw [he]; norm_num⟩
       · rcases List.mem_cons.mp hnb2 with he | hnb3
         · exact ⟨-5, by rw [he]; norm_num⟩
         · simp at hnb3)
     (by simp [nbsAB])⟩

-- ============================================
-- C10 witness
-- ============================================

/-- The single settlement emitted on the `userU`, `nbsAB` input. -/
def settlementBA : Settlement :=
  { from_ := "b", fromName := "Unknown", to_ := "a", toName := "Unknown", amount := 5 }

/-- C10 witness: on the +5 and -5 input the single settlement runs from
"b" to "a", and its payer side differs from its payee side. -/
theorem claim_C10_sides_disjoint_witness :
    settlementBA ∈ simplifySettlements userU nbsAB ∧
    settlementBA.from_ ≠ settlementBA.to_ := by
  have hmem : settlementBA ∈ simplifySettlements userU nbsAB := by
    rw [simplify_nbsAB_eval]
    exact List.mem_singleton.mpr rfl
  exact ⟨hmem, claim_C10_sides_disjoint userU nbsAB _ hmem _ hmem⟩

-- ============================================
-- C6: counterexample and witness
-- ============================================

/-- C6 (counterexample): with debtor balance -0.0151 and creditor balance
5, the emitted settlement amount is `Math.round(0.0151 * 100) / 100 =
0.02 = 1/50`, not the raw `min(|debtor|, creditor) = 0.0151` the claim
states (the raw min is what gets applied to the balances). -/
theorem claim_C6_counterexample :
    (simplifySettlements [] nbsFrac).map Settlement.amount = [1/50] ∧
    (1/50 : ℚ) ≠ min |(-(151/10000) : ℚ)| 5 := by
  refine ⟨?_, ?_⟩
  · rw [simplify_frac_eval]
    rfl
  · have habs : |(-(151/10000) : ℚ)| = 151/10000 := by
      rw [abs_of_neg (by norm_num)]
      norm_num
    rw [habs]
    norm_num

/-- The settlement one iteration emits on balances -5 and +5. -/
def settlementAB5 : Settlement :=
  { from_ := "a", fromName := "Unknown", to_ := "b", toName := "Unknown", amount := 5 }

/-- The balance map with entries ("a", -5) and ("b", 5). -/
def mapAB : List (String × ℚ) := [("a", -5), ("b", 5)]

/-- C6 witness: one loop iteration on balances -5 and +5 picks "a" as max
debtor and "b" as max creditor and settles min(5, 5) = 5. -/
theorem claim_C6_greedy_step_witness :
    ((mapAB.map Prod.fst)).Nodup ∧
    ∃ bd bc,
      mapGet mapAB settlementAB5.from_ = some bd ∧
      mapGet mapAB settlementAB5.to_ = some bc ∧
      bd < -(1/100) ∧ (1/100 : ℚ) < bc ∧
      (∀ q ∈ mapAB, q.2 < -(1/100) → |q.2| ≤ |bd|) ∧
      (∀ q ∈ mapAB, (1/100 : ℚ) < q.2 → q.2 ≤ bc) ∧
      (∃ l1 l2, mapAB = l1 ++ (settlementAB5.from_, bd) :: l2
          ∧ ∀ q ∈ l1, q.2 < -(1/100) → |q.2| < |bd|) ∧
      (∃ l1 l2, mapAB = l1 ++ (settlementAB5.to_, bc) :: l2
          ∧ ∀ q ∈ l1, (1/100 : ℚ) < q.2 → q.2 < bc) ∧
      settlementAB5.amount = jsRound2 (min |bd| bc) ∧
      [("a", (0 : ℚ)), ("b", (0 : ℚ))]
        = mapSet (mapSet mapAB settlementAB5.from_ (bd + min |bd| bc))
            settlementAB5.to_ (bc - min |bd| bc) := by
  have hit : settleIter [] mapAB
      = some (settlementAB5, [("a", (0 : ℚ)), ("b", (0 : ℚ))]) := by
    unfold mapAB settlementAB5
    exact settleIter_ab_eval
  exact ⟨by decide,
    claim_C6_greedy_step [] mapAB settlementAB5 [("a", (0 : ℚ)), ("b", (0 : ℚ))]
      (by decide) hit⟩

-- ============================================
-- Result cache (app/api/invites/route.ts lines 489-545)
-- ============================================

/-- A cache entry: payload, store time (ms), and data fingerprint. -/
structure CacheEntry (α : Type) where
  data : α
  timestamp : ℚ
  etag : String
deriving DecidableEq, Repr

/-- `CACHE_TTL_MS = 5 * 60 * 1000` (5 minutes). -/
def CACHE_TTL_MS : ℚ := 5 * 60 * 1000

/-- JavaScript `Map.delete`: drop the entry under the key (association
lists built by `mapSet` hold each key once, so filtering is exact). -/
def mapDelete {α : Type} (m : List (String × α)) (k : String) : List (String × α) :=
  m.filter (fun p => ¬ p.1 = k)

/-- `getCachedBalance(groupId, etag)` from the invites route, with the
global `balanceCache` map and `Date.now()` passed explicitly; returns
the lookup result and the cache state after the call. -/
def getCachedBalance {α : Type} (cache : List (String × CacheEntry α)) (now : ℚ)
    (groupId etag : String) : Option (CacheEntry α) × List (String × CacheEntry α) :=
  match mapGet cache groupId with
  | none => (none, cache)
  | some cached =>
    if now - cached.timestamp > CACHE_TTL_MS then (none, mapDelete cache groupId)
    else if ¬ cached.etag = etag then (none, mapDelete cache groupId)
    else (some cached, cache)

theorem mapGet_mapDelete_self {α : Type} (m : List (String × α)) (k : String) :
    mapGet (mapDelete m k) k = none := by
  induction m with
  | nil => rfl
  | cons p t ih =>
    unfold mapDelete at *
    by_cases h : p.1 = k
    · simpa [List.filter_cons, h] using ih
    · simpa [List.filter_cons, h, mapGet] using ih

-- ============================================
-- C9: cache lookup validity
-- ============================================

/-- C9: `getCachedBalance` returns a stored entry only if that entry is
the one cached under the group id, its fingerprint equals the supplied
one, and its age is at most the 5-minute TTL; on a fingerprint mismatch
or TTL expiry it returns null and the stale entry is removed from the
cache. -/
theorem claim_C9_cache_validity {α : Type} (cache : List (String × CacheEntry α))
    (now : ℚ) (groupId etag : String) :
    (∀ e, (getCachedBalance cache now groupId etag).1 = some e →
      mapGet cache groupId = some e ∧ e.etag = etag ∧ now - e.timestamp ≤ CACHE_TTL_MS) ∧
    (∀ e, mapGet cache groupId = some e →
      (e.etag ≠ etag ∨ now - e.timestamp > CACHE_TTL_MS) →
      (getCachedBalance cache now groupId etag).1 = none ∧
        mapGet (getCachedBalance cache now groupId etag).2 groupId = none) := by
  unfold getCachedBalance
  cases hg : mapGet cache groupId with
  | none =>
    dsimp only
    refine ⟨?_, ?_⟩
    · intro e he
      simp at he
    · intro e he
      simp at he
  | some cached =>
    dsimp only
    by_cases h1 : now - cached.timestamp > CACHE_TTL_MS
    · rw [if_pos h1]
      refine ⟨?_, ?_⟩
      · intro e he
        simp at he
      · intro e _ _
        exact ⟨rfl, mapGet_mapDelete_self cache groupId⟩
    · rw [if_neg h1]
      by_cases h2 : ¬ cached.etag = etag
      · rw [if_pos h2]
        refine ⟨?_, ?_⟩
        · intro e he
          simp at he
        · intro e _ _
          exact ⟨rfl, mapGet_mapDelete_self cache groupId⟩
      · rw [if_neg h2]
        push_neg at h2
        refine ⟨?_, ?_⟩
        · intro e he
          have hec : cached = e := Option.some_inj.mp he
          refine ⟨he, ?_, ?_⟩
          · rw [← hec]
            exact h2
          · rw [← hec]
            exact le_of_not_lt h1
        · intro e he hbad
          have hec : cached = e := Option.some_inj.mp he
          rcases hbad with hbad | hbad
          · rw [← hec] at hbad
            exact absurd h2 hbad
          · rw [← hec] at hbad
            exact absurd hbad h1

/-- Cache entry for the C9 witness. -/
def c9e : CacheEntry ℕ := { data := 7, timestamp := 0, etag := "tag" }

/-- Single-entry cache for the C9 witness. -/
def c9cache : List (String × CacheEntry ℕ) := [("g", c9e)]

/-- C9 witness: a fresh entry (age 1000 ms, matching fingerprint) is
returned, is the cached entry, matches the fingerprint, and is within
the TTL. -/
theorem claim_C9_cache_validity_witness :
    (getCachedBalance c9cache 1000 "g" "tag").1 = some c9e ∧
    (mapGet c9cache "g" = some c9e ∧ c9e.etag = "tag" ∧
      (1000 : ℚ) - c9e.timestamp ≤ CACHE_TTL_MS) := by
  have heval : (getCachedBalance c9cache 1000 "g" "tag").1 = some c9e := by
    unfold getCachedBalance c9cache c9e mapGet CACHE_TTL_MS
    norm_num
  exact ⟨heval, (claim_C9_cache_validity c9cache 1000 "g" "tag").1 c9e heval⟩
